import Mathlib

set_option maxHeartbeats 1000000

/-!
Shallow embedding of the mod-hub core (pattern engine, vtable engine,
string extraction, region enumeration) and proofs about it.

Conventions:
* Machine integers (`u8`, `usize`) are modelled as `Nat`; every operation
  the source performs on them stays within range at the call sites we
  model, so no explicit wrap-around is needed (noted where relevant).
* Rust `Vec<T>` is `List T`, `&str`/`String` is `List Char`,
  `Option<T>` is `Option T`, `Result<T, E>` is `Except E T`.
* Loops are modelled either by structural recursion on the iterated
  list/range, or (where the source loop's termination is a proof
  obligation in itself) by an explicit fuel parameter.
-/

namespace ModHub

/-- Pointer width of the x86-64 target: `std::mem::size_of::<usize>() = 8`. -/
def ptrSize : Nat := 8

/-- Modulus of 64-bit `usize` arithmetic. -/
def USIZE_MOD : Nat := 2 ^ 64

/-- Wrapping `usize` subtraction (release-mode Rust semantics; a debug
build would panic where this wraps). -/
def usizeSub (a b : Nat) : Nat := (a + (USIZE_MOD - b % USIZE_MOD)) % USIZE_MOD

/-- Wrapping `usize` addition. -/
def usizeAdd (a b : Nat) : Nat := (a + b) % USIZE_MOD

/-- Pattern-layer variants of `Error` from `src/errors.rs`. -/
inductive PatternError where
  | InvalidHex (tok : List Char)
  | InvalidPatternFormat (tok : List Char)
  | EmptyPattern
  | MaskLengthMismatch
  | InvalidMaskChar (c : Char)
deriving DecidableEq

/-- The `Pattern` struct from `src/pattern.rs`: a list of optional bytes
(`none` = wildcard) plus the parallel mask string. -/
structure Pattern where
  bytes : List (Option Nat)
  mask : List Char
deriving DecidableEq

/-- Value of a single hexadecimal digit character, if any. -/
def hexDigitVal (c : Char) : Option Nat :=
  if '0' ≤ c ∧ c ≤ '9' then some (c.toNat - '0'.toNat)
  else if 'a' ≤ c ∧ c ≤ 'f' then some (c.toNat - 'a'.toNat + 10)
  else if 'A' ≤ c ∧ c ≤ 'F' then some (c.toNat - 'A'.toNat + 10)
  else none

/-- Model of `u8::from_str_radix(part, 16)` for a two-character token.
Rust additionally accepts an optional leading plus sign, which we keep. -/
def u8FromStrRadix16 (c1 c2 : Char) : Option Nat :=
  if c1 = '+' then hexDigitVal c2
  else
    match hexDigitVal c1, hexDigitVal c2 with
    | some h, some l => some (16 * h + l)
    | _, _ => none

/-- Classification of one token by the body of the `Pattern::new` loop:
`?` and `??` are wildcards, exactly-two-character tokens are parsed as hex
(`InvalidHex` on failure), anything else is `InvalidPatternFormat`. -/
def parseToken (part : List Char) : Except PatternError (Option Nat) :=
  if part = ['?'] ∨ part = ['?', '?'] then .ok none
  else if part.length = 2 then
    match u8FromStrRadix16 (part.getD 0 ' ') (part.getD 1 ' ') with
    | some b => .ok (some b)
    | none => .error (.InvalidHex part)
  else .error (.InvalidPatternFormat part)

/-- The token loop of `Pattern::new`. The input is the token list produced
by `split_whitespace` (tokenisation itself is outside the model); `bytes`
and `mask` are the accumulators. A wildcard token pushes `none`/`?`, a hex
token pushes its byte/`x`, an invalid token aborts with its error. -/
def Pattern.newLoop : List (List Char) → List (Option Nat) → List Char →
    Except PatternError (List (Option Nat) × List Char)
  | [], bytes, mask => .ok (bytes, mask)
  | part :: rest, bytes, mask =>
    match parseToken part with
    | .ok none => Pattern.newLoop rest (bytes ++ [none]) (mask ++ ['?'])
    | .ok (some b) => Pattern.newLoop rest (bytes ++ [some b]) (mask ++ ['x'])
    | .error e => .error e

/-- Model of `Pattern::new` (src/pattern.rs, lines 20-44), over the token
list of the input string. -/
def Pattern.new (parts : List (List Char)) : Except PatternError Pattern :=
  match Pattern.newLoop parts [] [] with
  | .error e => .error e
  | .ok (bytes, mask) =>
    if bytes = [] then .error .EmptyPattern else .ok ⟨bytes, mask⟩

/-- The mask-character loop of `Pattern::from_bytes_and_mask`. The source
indexes `bytes[i]` while iterating mask characters; with the caller's
length check this is the same as consuming both lists in step, which is
what `List.headD`/`List.drop 1` do here. -/
def Pattern.fbmLoop : List Nat → List Char → Except PatternError (List (Option Nat))
  | _, [] => .ok []
  | bs, c :: cs =>
    if c = 'x' ∨ c = 'X' then
      (Pattern.fbmLoop (bs.drop 1) cs).map (fun r => some (bs.headD 0) :: r)
    else if c = '?' then
      (Pattern.fbmLoop (bs.drop 1) cs).map (fun r => none :: r)
    else .error (.InvalidMaskChar c)

/-- Model of `Pattern::from_bytes_and_mask` (src/pattern.rs, lines 47-66). -/
def Pattern.from_bytes_and_mask (bytes : List Nat) (mask : List Char) :
    Except PatternError Pattern :=
  if bytes.length ≠ mask.length then .error .MaskLengthMismatch
  else
    match Pattern.fbmLoop bytes mask with
    | .ok pbytes => .ok ⟨pbytes, mask⟩
    | .error e => .error e

/-- Model of `Pattern::len`. -/
def Pattern.len (p : Pattern) : Nat := p.bytes.length

/-- Model of `Pattern::is_empty`. -/
def Pattern.is_empty (p : Pattern) : Bool := p.bytes.isEmpty

/-- The byte-comparison loop of `Pattern::matches_at`: positions are
checked left to right, wildcards always pass. Out-of-range reads cannot
happen at call sites because of the caller's bounds check; `List.getD`
keeps the model total. -/
def Pattern.matchLoop (bytes : List (Option Nat)) (data : List Nat) (k : Nat) : Bool :=
  match bytes with
  | [] => true
  | none :: rest => Pattern.matchLoop rest data (k + 1)
  | some b :: rest => decide (data.getD k 0 = b) && Pattern.matchLoop rest data (k + 1)

/-- Model of `Pattern::matches_at` (src/pattern.rs, lines 89-102) on the
offsets where the `usize` sum `offset + self.len()` does not overflow.
The exact release-build semantics, with the wrapping sum and the
slice-indexing panic, is `Pattern.matches_at_usize` below; the two are
proved to agree on the overflow-free region (`matches_at_usize_eq`), and
every matcher only calls `matches_at` there. -/
def Pattern.matches_at (p : Pattern) (data : List Nat) (offset : Nat) : Bool :=
  if offset + p.len > data.length then false
  else Pattern.matchLoop p.bytes data offset

/-- The byte-comparison loop of `Pattern::matches_at` under exact release
`usize` semantics: the data index `offset + i` of src/pattern.rs line 96
is a wrapping addition, and `data[idx]` with `idx >= data.len()` is the
slice-indexing panic, modelled as `none`. Wildcard positions pass without
touching the buffer, so a wrapped index is only dereferenced when the
pattern byte is known. -/
def Pattern.matchLoopU (bytes : List (Option Nat)) (data : List Nat) (offset i : Nat) :
    Option Bool :=
  match bytes with
  | [] => some true
  | none :: rest => Pattern.matchLoopU rest data offset (i + 1)
  | some b :: rest =>
    if usizeAdd offset i < data.length then
      if data.getD (usizeAdd offset i) 0 ≠ b then some false
      else Pattern.matchLoopU rest data offset (i + 1)
    else none

/-- Model of `Pattern::matches_at` (src/pattern.rs, lines 89-102) under
exact release-build `usize` semantics: the bounds-check sum
`offset + self.len()` of line 90 wraps modulo 2^64, and an out-of-range
slice index inside the loop is the panic, modelled as `none`. -/
def Pattern.matches_at_usize (p : Pattern) (data : List Nat) (offset : Nat) : Option Bool :=
  if usizeAdd offset p.len > data.length then some false
  else Pattern.matchLoopU p.bytes data offset 0

/-- The `PatternMatch` struct. -/
structure PatternMatch where
  offset : Nat
  size : Nat
deriving DecidableEq

/-- Model of `NaiveMatcher::find_all` (src/pattern.rs, lines 122-140). -/
def NaiveMatcher.find_all (p : Pattern) (data : List Nat) : List PatternMatch :=
  if p.is_empty ∨ data.length < p.len then []
  else
    (List.range (data.length - p.len + 1)).filterMap fun i =>
      if p.matches_at data i then some ⟨i, p.len⟩ else none

/-- Model of `BoyerMooreMatcher::build_bad_char_table` (src/pattern.rs,
lines 165-176): the `HashMap<u8, usize>` maps each known (non-wildcard)
byte to an index; forward iteration with insert means the final binding
is the byte's rightmost pattern index. Modelled as a function into
`Option`. -/
def badCharStep (tbl : Nat → Option Nat) (pair : Nat × Option Nat) : Nat → Option Nat :=
  match pair.2 with
  | some b => fun x => if x = b then some pair.1 else tbl x
  | none => tbl

def build_bad_char_table (p : Pattern) : Nat → Option Nat :=
  p.bytes.enum.foldl badCharStep (fun _ => none)

/-- The inner right-to-left loop of `BoyerMooreMatcher::find_all`
(src/pattern.rs, lines 191-201): while `j > 0` and `matches_at` holds
for the whole window, compare the byte under `j - 1` (wildcards skip the
comparison) and decrement `j`; a failing comparison breaks out. -/
def bmInnerLoop (p : Pattern) (data : List Nat) (i : Nat) : Nat → Nat
  | 0 => 0
  | j + 1 =>
    if p.matches_at data i then
      match p.bytes.getD j none with
      | some pb =>
        if data.getD (i + j) 0 ≠ pb then j + 1
        else bmInnerLoop p data i j
      | none => bmInnerLoop p data i j
    else j + 1

/-- The outer loop of `BoyerMooreMatcher::find_all` (src/pattern.rs,
lines 188-218). On a full match the window advances by one; otherwise
the bad-character heuristic advances it by `max 1 (j - pos - 1)` when the
last window byte is known at index `pos`, and by `j` when it is unknown.
The `usize` subtraction `j - pos - 1` cannot underflow here because `j`
is the pattern length and `pos` a pattern index, so `Nat` truncated
subtraction agrees. The fuel argument only bounds the recursion: every
branch advances `i` by at least 1, so fuel `data.len - pattern_len + 1`
(the number of window positions) always suffices. -/
def bmOuterLoop (p : Pattern) (data : List Nat) (tbl : Nat → Option Nat)
    (pattern_len : Nat) : Nat → Nat → List PatternMatch → List PatternMatch
  | 0, _, acc => acc
  | fuel + 1, i, acc =>
    if i ≤ data.length - pattern_len then
      if bmInnerLoop p data i pattern_len = 0 then
        bmOuterLoop p data tbl pattern_len fuel (i + 1) (acc ++ [⟨i, pattern_len⟩])
      else
        match tbl (data.getD (i + bmInnerLoop p data i pattern_len - 1) 0) with
        | some pos =>
          bmOuterLoop p data tbl pattern_len fuel
            (i + max 1 (bmInnerLoop p data i pattern_len - pos - 1)) acc
        | none => bmOuterLoop p data tbl pattern_len fuel (i + bmInnerLoop p data i pattern_len) acc
    else acc

/-- Model of `BoyerMooreMatcher::find_all` (src/pattern.rs,
lines 179-221). -/
def BoyerMooreMatcher.find_all (p : Pattern) (data : List Nat) : List PatternMatch :=
  if p.is_empty ∨ data.length < p.len then []
  else bmOuterLoop p data (build_bad_char_table p) p.len (data.length - p.len + 1) 0 []

/-- Model of `KmpMatcher::pattern_chars_equal` (src/pattern.rs, lines
281-286): two pattern positions are equal when either is a wildcard or
both bytes agree. Call sites keep both indices in range; `getD`'s `none`
default is never reached. -/
def pattern_chars_equal (p : Pattern) (i j : Nat) : Bool :=
  match p.bytes.getD i none, p.bytes.getD j none with
  | some a, some b => a == b
  | _, _ => true

/-- Model of `KmpMatcher::pattern_matches_data` (src/pattern.rs, lines
288-294). -/
def pattern_matches_data (p : Pattern) (data : List Nat) (pattern_idx data_idx : Nat) : Bool :=
  match p.bytes.getD pattern_idx none with
  | some pb => data.getD data_idx 0 == pb
  | none => true

/-- The descent `while j > 0 && !check j { j = failure[j - 1] }` shared
by the failure-function construction and the matching loops. The fuel
argument only bounds the recursion: the failure tables built below
satisfy `failure[t] ≤ t`, so each step strictly decreases `j` and fuel
`j` always suffices. -/
def kmpDescend (failure : List Nat) (check : Nat → Bool) : Nat → Nat → Nat
  | 0, j => j
  | _ + 1, 0 => 0
  | fuel + 1, j + 1 =>
    if check (j + 1) then j + 1
    else kmpDescend failure check fuel (failure.getD j 0)

/-- One iteration (index `i`) of `KmpMatcher::build_failure_function`:
descend `j` while the positions disagree, extend it on agreement, store
it in `failure[i]`. -/
def kmpBuildStep (p : Pattern) (st : List Nat × Nat) (i : Nat) : List Nat × Nat :=
  let j1 := kmpDescend st.1 (fun j => pattern_chars_equal p i j) st.2 st.2
  let j2 := if pattern_chars_equal p i j1 then j1 + 1 else j1
  (st.1.set i j2, j2)

/-- Model of `KmpMatcher::build_failure_function` (src/pattern.rs, lines
262-279): `failure = vec![0; len]` then the loop over `i in 1..len`. -/
def build_failure_function (p : Pattern) : List Nat :=
  ((List.range' 1 (p.len - 1)).foldl (kmpBuildStep p) (List.replicate p.len 0, 0)).1

/-- One iteration (data index `i`) of the `KmpMatcher::find_all` loop:
descend `j` on mismatch, extend it on match, record an occurrence when
the whole pattern is matched and reset `j` through the failure table.
The recorded offset is the source's `i - pattern.len() + 1` in `usize`
arithmetic: when a match ends at `i = len - 1` (any match at offset 0)
the subtraction underflows; a release build wraps, and the following
`+ 1` wraps back to the correct offset — which is what `usizeSub` and
`usizeAdd` reproduce (a debug build would panic here instead). -/
def kmpSearchStep (p : Pattern) (data : List Nat) (failure : List Nat)
    (st : List PatternMatch × Nat) (i : Nat) : List PatternMatch × Nat :=
  let j1 := kmpDescend failure (fun j => pattern_matches_data p data j i) st.2 st.2
  let j2 := if pattern_matches_data p data j1 i then j1 + 1 else j1
  if j2 = p.len then
    (st.1 ++ [⟨usizeAdd (usizeSub i p.len) 1, p.len⟩], failure.getD (j2 - 1) 0)
  else (st.1, j2)

/-- Model of `KmpMatcher::find_all` (src/pattern.rs, lines 298-327). -/
def KmpMatcher.find_all (p : Pattern) (data : List Nat) : List PatternMatch :=
  if p.is_empty ∨ data.length < p.len then []
  else
    ((List.range data.length).foldl
      (kmpSearchStep p data (build_failure_function p)) ([], 0)).1

/-- The three concrete matcher strategies. -/
inductive MatcherChoice where
  | BoyerMoore
  | Kmp
  | Naive
deriving DecidableEq

/-- Number of wildcard positions of a pattern. -/
def wildcardCount (p : Pattern) : Nat := (p.bytes.filter Option.isNone).length

/-- Model of `HybridMatcher::select_matcher` (src/pattern.rs, lines
362-379). The source computes `wildcard_ratio` in `f32`; the model uses
the exact rational. The two could disagree only when the true ratio sits
at the rounding boundary of `0.3`; for the wildcard-free patterns the
theorems below instantiate this with, the ratio is exactly 0 in both
arithmetics, so the branch taken is the same. -/
def select_matcher (p : Pattern) : MatcherChoice :=
  if 8 ≤ p.len ∧ ((wildcardCount p : ℚ) / (p.len : ℚ) < 3 / 10) then .BoyerMoore
  else if 4 ≤ p.len then .Kmp
  else .Naive

/-- Model of `HybridMatcher::find_all` (src/pattern.rs, lines 382-386). -/
def HybridMatcher.find_all (p : Pattern) (data : List Nat) : List PatternMatch :=
  match select_matcher p with
  | .BoyerMoore => BoyerMooreMatcher.find_all p data
  | .Kmp => KmpMatcher.find_all p data
  | .Naive => NaiveMatcher.find_all p data

/-- A pattern is wildcard-free when every position is an exact byte. -/
def Pattern.noWildcards (p : Pattern) : Bool := p.bytes.all Option.isSome

/-- The combined descend-then-extend step of the KMP loops: descend, then
increment if the landing position also matches. `kmpBuildStep` and
`kmpSearchStep` are definitionally of this shape. -/
def kmpAdvance (F : List Nat) (check : Nat → Bool) (fuel j : Nat) : Nat :=
  if check (kmpDescend F check fuel j) then kmpDescend F check fuel j + 1
  else kmpDescend F check fuel j

/-- Specification of one failure-table entry: `F[t]` is the length of the
longest proper border of the pattern prefix of length `t + 1`. -/
def borderSpec (w F : List Nat) (t : Nat) : Prop :=
  F.getD t 0 ≤ t ∧ w.take (F.getD t 0) <:+ w.take (t + 1) ∧
    ∀ k, k ≤ t → w.take k <:+ w.take (t + 1) → k ≤ F.getD t 0

/-- Spec-side list of the pattern occurrences whose last byte lies at
index `i` or later: the bridging form in which the KMP loop produces its
matches. -/
def kmpEndMatches (w data : List Nat) (i : Nat) : List PatternMatch :=
  (List.range' i (data.length - i)).filterMap fun e =>
    if w <:+ data.take (e + 1) then some ⟨e + 1 - w.length, w.length⟩ else none

/-- Spec-side canonical match list: every window offset from `i` on at
which the pattern matches, in increasing order. `NaiveMatcher.find_all`
is this list at `i = 0`; the other matchers are proved equal to it. -/
def offsetMatches (p : Pattern) (data : List Nat) (i : Nat) : List PatternMatch :=
  (List.range' i (data.length - p.len + 1 - i)).filterMap fun o =>
    if p.matches_at data o then some ⟨o, p.len⟩ else none

/-- The `StringEncoding` enum from `src/analysis.rs`. -/
inductive StringEncoding where
  | Ascii
  | Unicode
  | Utf8
deriving DecidableEq

/-- The `StringReference` struct from `src/analysis.rs`. The `value` field
is the byte content of the string; `String::from_utf8` always succeeds on
the printable-ASCII bytes collected by `extract_strings`, so no failure
case is needed. -/
structure StringReference where
  address : Nat
  value : List Nat
  encoding : StringEncoding
  references : List Nat
deriving DecidableEq

/-- The byte test of `extract_strings`:
`byte.is_ascii_graphic() || byte == b' '`. -/
def isPrintableByte (b : Nat) : Bool :=
  (0x21 ≤ b && b ≤ 0x7E) || b == 0x20

/-- The loop of `AnalysisEngine::extract_strings` (src/analysis.rs,
lines 521-548). Arguments: remaining bytes, current index `i`, the
`current_string` accumulator, `start_offset`, and the `strings` output
accumulator. Flushing happens only when a non-printable byte is seen;
the source has no flush after the loop. -/
def extractLoop (base : Nat) :
    List Nat → Nat → List Nat → Nat → List StringReference → List StringReference
  | [], _, _, _, acc => acc
  | b :: rest, i, cur, start, acc =>
    if isPrintableByte b then
      if cur.isEmpty then extractLoop base rest (i + 1) [b] i acc
      else extractLoop base rest (i + 1) (cur ++ [b]) start acc
    else
      if 4 ≤ cur.length then
        extractLoop base rest (i + 1) [] start (acc ++ [⟨base + start, cur, .Ascii, []⟩])
      else extractLoop base rest (i + 1) [] start acc

/-- Model of `AnalysisEngine::extract_strings`. -/
def extract_strings (data : List Nat) (base_address : Nat) : List StringReference :=
  extractLoop base_address data 0 [] 0 []

/-- The maximal printable run beginning at offset `s` of the buffer. -/
def runAt (data : List Nat) (s : Nat) : List Nat :=
  (data.drop s).takeWhile isPrintableByte

/-- Spec-side description of one candidate offset: `s` starts a maximal
printable run (it is offset 0 or its predecessor is non-printable) whose
length is at least 4 and which is terminated by a non-printable byte
strictly inside the buffer. -/
def posContrib (data : List Nat) (base : Nat) (s : Nat) : Option StringReference :=
  if (s = 0 ∨ isPrintableByte (data.getD (s - 1) 0) = false) ∧
      4 ≤ (runAt data s).length ∧ s + (runAt data s).length < data.length
  then some ⟨base + s, runAt data s, .Ascii, []⟩
  else none

/-- Spec-side list of string references from offset `i` on. -/
def terminatedRunsFrom (data : List Nat) (base i : Nat) : List StringReference :=
  (List.range' i (data.length - i)).filterMap (posContrib data base)

/-- Spec-side description of the amended C5 claim: one `StringReference`
per maximal printable run of length at least 4 that is terminated by a
non-printable byte before the end of the buffer. -/
def terminatedRunStrings (data : List Nat) (base : Nat) : List StringReference :=
  terminatedRunsFrom data base 0

/-- The `VirtualFunction` struct from `src/vtable.rs`. -/
structure VirtualFunction where
  address : Nat
  index : Nat
deriving DecidableEq

/-- The `VTable` struct from `src/vtable.rs`. -/
structure VTable where
  base_address : Nat
  functions : List VirtualFunction
  type_info_ptr : Option Nat
  size : Nat
deriving DecidableEq

/-- Model of `VTable::new`. -/
def VTable.new (base_address : Nat) : VTable :=
  ⟨base_address, [], none, 0⟩

/-- Model of `VTable::add_function` (src/vtable.rs, lines 40-44): pushes
the function and recomputes `size` as
`functions.len() * size_of::<usize>() + size_of::<usize>()`, the extra
pointer width being commented in the source as "+1 for RTTI pointer". -/
def VTable.add_function (vt : VTable) (address index : Nat) : VTable :=
  let fns := vt.functions ++ [⟨address, index⟩]
  { vt with functions := fns, size := fns.length * ptrSize + ptrSize }

/-- Model of `VTable::function_count`. -/
def VTable.function_count (vt : VTable) : Nat := vt.functions.length

/-- Model of `VTable::get_function`. -/
def VTable.get_function (vt : VTable) (index : Nat) : Option VirtualFunction :=
  vt.functions[index]?

/-- Model of `VTable::estimated_class_name`: a placeholder
`Class_{:X}` name derived from the base address. -/
def hexDigitChar (n : Nat) : Char :=
  if n < 10 then Char.ofNat ('0'.toNat + n) else Char.ofNat ('A'.toNat + (n - 10))

/-- Upper-case hexadecimal digits of `n`, most significant first; the
fuel argument only bounds the recursion (`n / 16 < n` for `n > 0`, so
fuel `n` always suffices). -/
def hexDigitsAux : Nat → Nat → List Char
  | 0, _ => []
  | fuel + 1, n => if n = 0 then [] else hexDigitsAux fuel (n / 16) ++ [hexDigitChar (n % 16)]

/-- Rust `format!("{:X}", n)`. -/
def hexString (n : Nat) : List Char :=
  if n = 0 then ['0'] else hexDigitsAux n n

/-- Model of `VTable::estimated_class_name`. -/
def VTable.estimated_class_name (vt : VTable) : Option (List Char) :=
  some (['C', 'l', 'a', 's', 's', '_'] ++ hexString vt.base_address)

/-- The `VTableScanConfig` struct. -/
structure VTableScanConfig where
  min_functions : Nat
  max_functions : Nat
  include_rtti : Bool
  alignment : Nat
  excluded_ranges : List (Nat × Nat)
deriving DecidableEq

/-- Model of `VTableScanConfig::default`. -/
def VTableScanConfig.default : VTableScanConfig :=
  ⟨2, 256, true, ptrSize, []⟩

/-- Model of `CodeHeuristics::has_function_prologue` (src/vtable.rs,
lines 136-161): the four bytes at `offset` must match one of the
recognized x86-64 prologue patterns. -/
def has_function_prologue (data : List Nat) (offset : Nat) : Bool :=
  if offset + 4 > data.length then false
  else
    let b0 := data.getD offset 0
    let b1 := data.getD (offset + 1) 0
    let b2 := data.getD (offset + 2) 0
    let b3 := data.getD (offset + 3) 0
    (b0 == 0x55 && b1 == 0x48 && b2 == 0x89 && b3 == 0xE5) ||
    (b0 == 0x55 && b1 == 0x48 && b2 == 0x8B && b3 == 0xEC) ||
    (b0 == 0x48 && b1 == 0x83 && b2 == 0xEC) ||
    (b0 == 0x48 && b1 == 0x81 && b2 == 0xEC) ||
    (b0 == 0x53) ||
    (b0 == 0x48 && b1 == 0x89 && b2 == 0x4C && b3 == 0x24) ||
    (b0 == 0xCC)

/-- Model of `CodeHeuristics::is_valid_function_ptr` (src/vtable.rs,
lines 115-133). -/
def is_valid_function_ptr (address : Nat) (data : List Nat) (base_addr : Nat) : Bool :=
  if address == 0 then false
  else if address < base_addr || address > base_addr + data.length then false
  else
    let offset := address - base_addr
    if offset ≥ data.length then false
    else has_function_prologue data offset

/-- Little-endian read of 8 bytes (`usize::from_le_bytes`); callers
guarantee the bytes are in range. -/
def readLE8 (data : List Nat) (offset : Nat) : Nat :=
  data.getD offset 0 +
    256 * (data.getD (offset + 1) 0 +
    256 * (data.getD (offset + 2) 0 +
    256 * (data.getD (offset + 3) 0 +
    256 * (data.getD (offset + 4) 0 +
    256 * (data.getD (offset + 5) 0 +
    256 * (data.getD (offset + 6) 0 +
    256 * data.getD (offset + 7) 0))))))

/-- Model of `CodeHeuristics::is_rtti_type_info` (src/vtable.rs,
lines 164-182). -/
def is_rtti_type_info (address : Nat) (data : List Nat) (base_addr : Nat) : Bool :=
  if address < base_addr || address > base_addr + data.length then false
  else
    let offset := address - base_addr
    if offset + 16 > data.length then false
    else
      let ptr_val := readLE8 data offset
      ptr_val != 0 && base_addr ≤ ptr_val && ptr_val ≤ base_addr + data.length

/-- Model of `VTableScanner::read_pointer` (src/vtable.rs, lines 285-296). -/
def read_pointer (data : List Nat) (offset : Nat) : Nat :=
  if offset + ptrSize > data.length then 0
  else readLE8 data offset

/-- Model of `VTableScanner::is_address_excluded`. -/
def is_address_excluded (cfg : VTableScanConfig) (address : Nat) : Bool :=
  cfg.excluded_ranges.any (fun r => r.1 ≤ address && address ≤ r.2)

/-- The virtual-function loop of `analyze_potential_vtable`
(src/vtable.rs, lines 262-274). The structural counter `remaining` is
`max_functions - function_index`, so the guard
`function_index < max_functions` of the source loop is `remaining > 0`. -/
def vtFunctionLoop (data : List Nat) (base_addr : Nat) :
    Nat → Nat → Nat → VTable → VTable
  | 0, _, _, vt => vt
  | remaining + 1, function_index, current_offset, vt =>
    if current_offset + ptrSize ≤ data.length then
      let func_ptr := read_pointer data current_offset
      if is_valid_function_ptr func_ptr data base_addr then
        vtFunctionLoop data base_addr remaining (function_index + 1)
          (current_offset + ptrSize) (vt.add_function func_ptr function_index)
      else vt
    else vt

/-- Model of `VTableScanner::analyze_potential_vtable` (src/vtable.rs,
lines 240-282). -/
def analyze_potential_vtable (cfg : VTableScanConfig) (data : List Nat)
    (base_addr offset : Nat) : Option VTable :=
  let vt0 := VTable.new (base_addr + offset)
  let state :=
    if cfg.include_rtti then
      if offset + ptrSize ≤ data.length then
        let rtti_ptr := read_pointer data offset
        if is_rtti_type_info rtti_ptr data base_addr then
          ({ vt0 with type_info_ptr := some rtti_ptr }, offset + ptrSize)
        else (vt0, offset)
      else (vt0, offset)
    else (vt0, offset)
  let vt2 := vtFunctionLoop data base_addr cfg.max_functions 0 state.2 state.1
  if cfg.min_functions ≤ vt2.function_count then some vt2 else none

/-- Model of Rust `(0..n).step_by(step)`. The fuel argument only bounds
the recursion: each iteration advances `i` by `step ≥ 1` (the source
never passes step 0, which would panic in Rust), so fuel `n` suffices. -/
def stepByLoop (n step : Nat) : Nat → Nat → List Nat
  | 0, _ => []
  | fuel + 1, i => if i < n then i :: stepByLoop n step fuel (i + step) else []

/-- Indices visited by `for i in (0..n).step_by(step)`. -/
def stepBy (n step : Nat) : List Nat := stepByLoop n step n 0

/-- Model of `VTableScanner::scan_vtables` (src/vtable.rs, lines
215-237). The source loop `break`s at the first index without room for a
pointer (hence `takeWhile`), `continue`s on excluded addresses, and
pushes each analyzed vtable (hence `filterMap`). -/
def scan_vtables (cfg : VTableScanConfig) (data : List Nat) (base_address : Nat) :
    List VTable :=
  ((stepBy data.length cfg.alignment).takeWhile
      (fun i => i + ptrSize ≤ data.length)).filterMap fun i =>
    if is_address_excluded cfg (base_address + i) then none
    else analyze_potential_vtable cfg data base_address i

/-- Model of `VTableScanner::is_derived_vtable` (src/vtable.rs, lines
353-371): early `false` if the candidate has fewer functions, then a scan
of the first `base.function_count` indices that only compares when both
lookups succeed. -/
def is_derived_vtable (base derived : VTable) : Bool :=
  if derived.function_count < base.function_count then false
  else
    (List.range base.functions.length).all fun i =>
      match base.get_function i, derived.get_function i with
      | some bf, some df => bf.address == df.address
      | _, _ => true

/-- Insert-or-replace on an association list, modelling
`HashMap::insert` (one fixed iteration order stands in for the map's
unspecified one). -/
def insertReplace {α : Type} (m : List (Nat × α)) (k : Nat) (v : α) : List (Nat × α) :=
  if m.any (fun p => p.1 == k) then
    m.map (fun p => if p.1 == k then (k, v) else p)
  else m ++ [(k, v)]

/-- Lookup on the association list, modelling `HashMap::get`. -/
def mapGet {α : Type} (m : List (Nat × α)) (k : Nat) : Option α :=
  (m.find? (fun p => p.1 == k)).map Prod.snd

/-- Model of `VTableScanner::analyze_inheritance` (src/vtable.rs, lines
327-350). -/
def analyze_inheritance (vtables : List VTable) : List (Nat × List Nat) :=
  vtables.foldl
    (fun acc base_vt =>
      let derived := vtables.filterMap fun d =>
        if base_vt.base_address == d.base_address then none
        else if is_derived_vtable base_vt d then some d.base_address else none
      if derived.isEmpty then acc
      else insertReplace acc base_vt.base_address derived)
    []

/-- The `ClassInfo` struct from `src/vtable.rs`. -/
structure ClassInfo where
  vtable_address : Nat
  name : List Char
  functions : List VirtualFunction
  base_classes : List Nat
  derived_classes : List Nat
deriving DecidableEq

/-- The `ClassHierarchy` struct: a map from vtable address to `ClassInfo`. -/
structure ClassHierarchy where
  classes : List (Nat × ClassInfo)
deriving DecidableEq

/-- Model of `ClassHierarchy::new`. -/
def ClassHierarchy.new : ClassHierarchy := ⟨[]⟩

/-- Model of `ClassHierarchy::add_class`. -/
def ClassHierarchy.add_class (h : ClassHierarchy) (ci : ClassInfo) : ClassHierarchy :=
  ⟨insertReplace h.classes ci.vtable_address ci⟩

/-- All stored classes, in the model's iteration order
(`HashMap::values`). -/
def ClassHierarchy.all_classes (h : ClassHierarchy) : List ClassInfo :=
  h.classes.map Prod.snd

/-- Model of `ClassHierarchy::find_root_classes`. -/
def ClassHierarchy.find_root_classes (h : ClassHierarchy) : List ClassInfo :=
  h.all_classes.filter (fun c => c.base_classes.isEmpty)

/-- Model of `VTableAnalyzer::reconstruct_hierarchy` (src/vtable.rs,
lines 379-403): every `ClassInfo` is built with an empty `base_classes`
list; only `derived_classes` comes from the inheritance map. -/
def reconstruct_hierarchy (vtables : List VTable) : ClassHierarchy :=
  let inheritance_map := analyze_inheritance vtables
  vtables.foldl
    (fun h vt =>
      h.add_class
        { vtable_address := vt.base_address
          name := (VTable.estimated_class_name vt).getD
            (['U', 'n', 'k', 'n', 'o', 'w', 'n', 'C', 'l', 'a', 's', 's', '_'] ++
              hexString vt.base_address)
          functions := vt.functions
          base_classes := []
          derived_classes := (mapGet inheritance_map vt.base_address).getD [] })
    ClassHierarchy.new

/-- The fields of `MEMORY_BASIC_INFORMATION` that `enumerate_regions`
reads (`PartitionId`, `AllocationBase` and `AllocationProtect` are never
used and omitted). -/
structure MemoryBasicInformation where
  BaseAddress : Nat
  RegionSize : Nat
  State : Nat
  Protect : Nat
deriving DecidableEq

/-- The `MEM_COMMIT` state constant. -/
def MEM_COMMIT : Nat := 0x1000

/-- The fields of `MemoryRegion` filled by `enumerate_regions`; the
protection/state enum conversions are kept as the raw values they are
converted from, and `region_type` is the constant `Private` in the
source, so it carries no information. -/
structure MemoryRegion where
  base_address : Nat
  size : Nat
  protect : Nat
  state : Nat
deriving DecidableEq

/-- The loop of `MemoryScanner::enumerate_regions` (src/memory.rs, lines
264-307). The OS primitive `VirtualQueryEx` is abstracted as a function
from the queried address to `none` (result 0) or the returned
`MEMORY_BASIC_INFORMATION`. The fuel argument makes the unboundedly
looping source function total: `none` means the loop has not terminated
within `fuel` iterations. -/
def enumLoop (query : Nat → Option MemoryBasicInformation) :
    Nat → Nat → List MemoryRegion → Option (List MemoryRegion)
  | 0, _, _ => none
  | fuel + 1, address, regions =>
    match query address with
    | none => some regions
    | some mbi =>
      let regions' :=
        if mbi.State == MEM_COMMIT then
          regions ++ [⟨mbi.BaseAddress, mbi.RegionSize, mbi.Protect, mbi.State⟩]
        else regions
      enumLoop query fuel (mbi.BaseAddress + mbi.RegionSize) regions'

/-- Model of `MemoryScanner::enumerate_regions`: the walk starts at
address 0 with an empty region list. -/
def enumerate_regions (query : Nat → Option MemoryBasicInformation) (fuel : Nat) :
    Option (List MemoryRegion) :=
  enumLoop query fuel 0 []

/-- An OS query that answers every request with a zero-size committed
region based at the queried address — the degenerate behaviour the spec
requires `enumerate_regions` to defend against. -/
def zeroSizeQuery : Nat → Option MemoryBasicInformation :=
  fun addr => some ⟨addr, 0, MEM_COMMIT, 0⟩

/-- The 40-byte synthetic scan buffer of claim C3: four pointer slots
holding `0x1020` (= base `0x1000` + offset 32, where a `push rbx`
prologue byte sits), then one slot holding `0x53`, which fails the
function-pointer heuristic because it is below the base address. -/
def vtableBuffer : List Nat :=
  [0x20, 0x10, 0, 0, 0, 0, 0, 0,
   0x20, 0x10, 0, 0, 0, 0, 0, 0,
   0x20, 0x10, 0, 0, 0, 0, 0, 0,
   0x20, 0x10, 0, 0, 0, 0, 0, 0,
   0x53, 0, 0, 0, 0, 0, 0, 0]

/-- The vtable the scanner finds at offset 0 of `vtableBuffer`. -/
def vt40 : VTable :=
  ⟨4096, [⟨4128, 0⟩, ⟨4128, 1⟩, ⟨4128, 2⟩, ⟨4128, 3⟩], none, 40⟩

/-- Example vtable with functions `[A, B]` (spec example for C7). -/
def vtAB : VTable :=
  (VTable.new 0x1000).add_function 0xA000 0 |>.add_function 0xB000 1

/-- Example vtable with functions `[A, B, C]`. -/
def vtABC : VTable :=
  (VTable.new 0x2000).add_function 0xA000 0 |>.add_function 0xB000 1 |>.add_function 0xC000 2

/-- Example vtable with functions `[A, X, C]`. -/
def vtAXC : VTable :=
  (VTable.new 0x3000).add_function 0xA000 0 |>.add_function 0x5000 1 |>.add_function 0xC000 2

section MatchesAtSpec

/-- Pointwise reading of the comparison loop. -/
lemma matchLoop_iff (bytes : List (Option Nat)) (data : List Nat) (k : Nat) :
    Pattern.matchLoop bytes data k = true ↔
      ∀ i, i < bytes.length → ∀ b, bytes.getD i none = some b →
        data.getD (k + i) 0 = b := by
  induction bytes generalizing k with
  | nil => simp [Pattern.matchLoop]
  | cons hd tl ih =>
    have hshift : ∀ j : Nat, k + (j + 1) = (k + 1) + j := by omega
    cases hd with
    | none =>
      rw [Pattern.matchLoop, ih]
      constructor
      · intro h i hi b hb
        match i, hi with
        | 0, _ => simp at hb
        | (j+1), hj =>
          rw [hshift j]
          exact h j (by simpa using hj) b (by simpa using hb)
      · intro h i hi b hb
        have := h (i + 1) (by simpa using hi) b (by simpa using hb)
        rw [hshift i] at this
        exact this
    | some v =>
      rw [Pattern.matchLoop, Bool.and_eq_true, decide_eq_true_iff, ih]
      constructor
      · rintro ⟨h0, h⟩ i hi b hb
        match i, hi with
        | 0, _ =>
          simp only [List.getD_cons_zero] at hb
          cases hb
          simpa using h0
        | (j+1), hj =>
          rw [hshift j]
          exact h j (by simpa using hj) b (by simpa using hb)
      · intro h
        refine ⟨by simpa using h 0 (Nat.succ_pos _) v (by simp), ?_⟩
        intro i hi b hb
        have := h (i + 1) (by simpa using hi) b (by simpa using hb)
        rw [hshift i] at this
        exact this

/-- Shared characterization of `matches_at`: bounds check first, then
pointwise agreement on the non-wildcard positions. -/
lemma matches_at_spec (p : Pattern) (data : List Nat) (offset : Nat) :
    p.matches_at data offset = true ↔
      (offset + p.len ≤ data.length ∧
        ∀ i, i < p.len → ∀ b, p.bytes.getD i none = some b →
          data.getD (offset + i) 0 = b) := by
  unfold Pattern.matches_at
  by_cases h : offset + p.len > data.length
  · rw [if_pos h]
    constructor
    · intro hfalse
      exact absurd hfalse (by simp)
    · intro hall
      omega
  · rw [if_neg h, matchLoop_iff]
    have hle : offset + p.len ≤ data.length := by omega
    exact ⟨fun hall => ⟨hle, hall⟩, fun hall => hall.2⟩

/-- As long as every cell the loop will touch lies below both 2^64 and the
buffer length, the wrapping loop reads the same cells as `matchLoop` and
never hits the panic branch. -/
lemma matchLoopU_eq (bytes : List (Option Nat)) (data : List Nat) (offset : Nat) :
    ∀ i, offset + i + bytes.length < USIZE_MOD →
      offset + i + bytes.length ≤ data.length →
      Pattern.matchLoopU bytes data offset i =
        some (Pattern.matchLoop bytes data (offset + i)) := by
  induction bytes with
  | nil =>
    intro i _ _
    rfl
  | cons hd tl ih =>
    intro i hU hlen
    simp only [List.length_cons] at hU hlen
    have hstep : offset + (i + 1) = offset + i + 1 := by omega
    cases hd with
    | none =>
      rw [Pattern.matchLoopU, Pattern.matchLoop, ih (i + 1) (by omega) (by omega), hstep]
    | some b =>
      have hidx : usizeAdd offset i = offset + i := by
        unfold usizeAdd
        exact Nat.mod_eq_of_lt (by omega)
      have hin : offset + i < data.length := by omega
      rw [Pattern.matchLoopU, Pattern.matchLoop, hidx, if_pos hin]
      by_cases hb : data.getD (offset + i) 0 = b
      · rw [if_neg (by simpa using hb), decide_eq_true hb, Bool.true_and,
          ih (i + 1) (by omega) (by omega), hstep]
      · rw [if_pos hb, decide_eq_false hb, Bool.false_and]

/-- On offsets where `offset + pattern.len()` does not overflow `usize`,
the release-semantics `matches_at` never panics and returns exactly what
the overflow-free model returns. -/
lemma matches_at_usize_eq (p : Pattern) (data : List Nat) (offset : Nat)
    (h : offset + p.len < USIZE_MOD) :
    p.matches_at_usize data offset = some (p.matches_at data offset) := by
  unfold Pattern.matches_at_usize Pattern.matches_at
  have hadd : usizeAdd offset p.len = offset + p.len := by
    unfold usizeAdd
    exact Nat.mod_eq_of_lt h
  rw [hadd]
  by_cases hb : offset + p.len > data.length
  · rw [if_pos hb, if_pos hb]
  · rw [if_neg hb, if_neg hb,
      matchLoopU_eq p.bytes data offset 0 (by show offset + 0 + p.len < USIZE_MOD; omega)
        (by show offset + 0 + p.len ≤ data.length; omega),
      Nat.add_zero]

end MatchesAtSpec

/-- Claim C10, counterexample: `matches_at` does NOT return `false` on
every offset with `offset + pattern.len() > data.len()`. At offset
2^64 - 1 with the pattern `"?? 48"` over the one-byte buffer `[0x48]`,
the release build's bounds-check sum wraps to 1, the leading wildcard
skips the huge index, the loop's only read wraps to index 0, and the
function returns `true` (a debug build would instead panic on the
overflowing add of line 90). -/
theorem C10_counterexample_matches_at_wrap :
    (USIZE_MOD - 1) + Pattern.len ⟨[none, some 0x48], ['?', 'x']⟩ >
        ([0x48] : List Nat).length ∧
      Pattern.matches_at_usize ⟨[none, some 0x48], ['?', 'x']⟩ [0x48] (USIZE_MOD - 1) =
        some true := by
  constructor
  · decide
  · rfl

/-- Claim C10 (amended): on every offset where the `usize` sum
`offset + pattern.len()` does not overflow — which covers every offset
that can arise from indexing a real buffer — `Pattern::matches_at`
neither panics nor reads outside the buffer: it returns `false` whenever
`offset + pattern.len() > data.len()`, and otherwise returns `true` if
and only if every non-wildcard pattern position equals the corresponding
data byte. On the excluded offsets the sum wraps and the release build
can return `true` instead (see the counterexample). -/
theorem C10_matches_at_no_overflow_semantics (p : Pattern) (data : List Nat) (offset : Nat)
    (h : offset + p.len < USIZE_MOD) :
    p.matches_at_usize data offset = some (p.matches_at data offset) ∧
      (p.matches_at data offset = true ↔
        (offset + p.len ≤ data.length ∧
          ∀ i, i < p.len → ∀ b, p.bytes.getD i none = some b →
            data.getD (offset + i) 0 = b)) :=
  ⟨matches_at_usize_eq p data offset h, matches_at_spec p data offset⟩

/-- Witness for the amended C10 theorem: the pattern `"03 ??"` at offset
2 over the buffer `[9, 9, 3, 7]`. -/
theorem C10_matches_at_no_overflow_semantics_witness :
    ((2 : Nat) + Pattern.len ⟨[some 3, none], ['x', '?']⟩ < USIZE_MOD) ∧
      (Pattern.matches_at_usize ⟨[some 3, none], ['x', '?']⟩ [9, 9, 3, 7] 2 =
          some (Pattern.matches_at ⟨[some 3, none], ['x', '?']⟩ [9, 9, 3, 7] 2) ∧
        (Pattern.matches_at ⟨[some 3, none], ['x', '?']⟩ [9, 9, 3, 7] 2 = true ↔
          (2 + Pattern.len ⟨[some 3, none], ['x', '?']⟩ ≤ ([9, 9, 3, 7] : List Nat).length ∧
            ∀ i, i < Pattern.len ⟨[some 3, none], ['x', '?']⟩ →
              ∀ b, (Pattern.bytes ⟨[some 3, none], ['x', '?']⟩).getD i none = some b →
                ([9, 9, 3, 7] : List Nat).getD (2 + i) 0 = b))) :=
  ⟨by decide,
    C10_matches_at_no_overflow_semantics ⟨[some 3, none], ['x', '?']⟩ [9, 9, 3, 7] 2 (by decide)⟩

section ConstructorInvariants

/-- The token loop appends one byte and one mask character per consumed token. -/
lemma newLoop_ok_lengths :
    ∀ (parts : List (List Char)) (bytes : List (Option Nat)) (mask : List Char)
      (r : List (Option Nat) × List Char),
      Pattern.newLoop parts bytes mask = .ok r →
      r.1.length = bytes.length + parts.length ∧ r.2.length = mask.length + parts.length := by
  intro parts
  induction parts with
  | nil =>
    intro bytes mask r h
    rw [Pattern.newLoop] at h
    cases h
    simp
  | cons part rest ih =>
    intro bytes mask r h
    rw [Pattern.newLoop] at h
    cases hp : parseToken part with
    | ok ob =>
      rw [hp] at h
      cases ob with
      | none =>
        obtain ⟨h1, h2⟩ := ih _ _ _ h
        constructor <;> simp [h1, h2] <;> omega
      | some b =>
        obtain ⟨h1, h2⟩ := ih _ _ _ h
        constructor <;> simp [h1, h2] <;> omega
    | error e =>
      rw [hp] at h
      cases h

/-- Token classification never produces the `EmptyPattern` error. -/
lemma parseToken_ne_emptyPattern (part : List Char) :
    parseToken part ≠ .error .EmptyPattern := by
  intro h
  rw [parseToken] at h
  by_cases hw : part = ['?'] ∨ part = ['?', '?']
  · rw [if_pos hw] at h
    cases h
  · rw [if_neg hw] at h
    by_cases h2 : part.length = 2
    · rw [if_pos h2] at h
      cases hu : u8FromStrRadix16 (part.getD 0 ' ') (part.getD 1 ' ') <;>
        rw [hu] at h <;> simp at h
    · rw [if_neg h2] at h
      simp at h

/-- The token loop never produces the `EmptyPattern` error. -/
lemma newLoop_ne_emptyPattern :
    ∀ (parts : List (List Char)) (bytes : List (Option Nat)) (mask : List Char),
      Pattern.newLoop parts bytes mask ≠ .error .EmptyPattern := by
  intro parts
  induction parts with
  | nil =>
    intro bytes mask h
    rw [Pattern.newLoop] at h
    cases h
  | cons part rest ih =>
    intro bytes mask h
    rw [Pattern.newLoop] at h
    cases hp : parseToken part with
    | ok ob =>
      rw [hp] at h
      cases ob with
      | none => exact ih _ _ h
      | some b => exact ih _ _ h
    | error e =>
      rw [hp] at h
      cases h
      exact parseToken_ne_emptyPattern part hp

/-- The mask loop yields one pattern byte per mask character. -/
lemma fbmLoop_ok_length :
    ∀ (mask : List Char) (bs : List Nat) (r : List (Option Nat)),
      Pattern.fbmLoop bs mask = .ok r → r.length = mask.length := by
  intro mask
  induction mask with
  | nil =>
    intro bs r h
    rw [Pattern.fbmLoop] at h
    cases h
    rfl
  | cons c cs ih =>
    intro bs r h
    rw [Pattern.fbmLoop] at h
    split at h
    · cases hrec : Pattern.fbmLoop (bs.drop 1) cs with
      | ok r0 =>
        rw [hrec] at h
        cases h
        simpa using ih _ _ hrec
      | error e => rw [hrec] at h; cases h
    · split at h
      · cases hrec : Pattern.fbmLoop (bs.drop 1) cs with
        | ok r0 =>
          rw [hrec] at h
          cases h
          simpa using ih _ _ hrec
        | error e => rw [hrec] at h; cases h
      · cases h

/-- The mask loop fails whenever some mask character is outside `{x, X, ?}`. -/
lemma fbmLoop_err_of_bad_char :
    ∀ (mask : List Char) (bs : List Nat) (c : Char), c ∈ mask →
      c ≠ 'x' → c ≠ 'X' → c ≠ '?' → ∃ e, Pattern.fbmLoop bs mask = .error e := by
  intro mask
  induction mask with
  | nil => intro bs c hc; cases hc
  | cons d cs ih =>
    intro bs c hc h1 h2 h3
    rw [Pattern.fbmLoop]
    by_cases hd : d = 'x' ∨ d = 'X'
    · rw [if_pos hd]
      have hc' : c ∈ cs := by
        cases hc with
        | head =>
          rcases hd with h | h
          · exact absurd h h1
          · exact absurd h h2
        | tail _ h => exact h
      obtain ⟨e, he⟩ := ih (bs.drop 1) c hc' h1 h2 h3
      exact ⟨e, by rw [he]; rfl⟩
    · rw [if_neg hd]
      by_cases hq : d = '?'
      · rw [if_pos hq]
        have hc' : c ∈ cs := by
          cases hc with
          | head => exact absurd hq h3
          | tail _ h => exact h
        obtain ⟨e, he⟩ := ih (bs.drop 1) c hc' h1 h2 h3
        exact ⟨e, by rw [he]; rfl⟩
      · rw [if_neg hq]
        exact ⟨.InvalidMaskChar d, rfl⟩

end ConstructorInvariants

/-- Counterexample to claim C8 as stated: `Pattern::from_bytes_and_mask`
accepts an empty byte list with an empty mask and returns an empty
`Pattern`, so it is not true that neither constructor ever returns an
empty `Pattern`. -/
theorem C8_counterexample_fbm_accepts_empty :
    Pattern.from_bytes_and_mask [] [] = .ok ⟨[], []⟩ ∧
      (Pattern.mk [] []).is_empty = true :=
  ⟨rfl, rfl⟩

/-- Claim C8 (amended): every `Pattern` built by `Pattern::new` is
non-empty with mask length equal to byte-sequence length; `Pattern::new`
fails with `EmptyPattern` exactly when there are no tokens;
`from_bytes_and_mask` preserves mask length = byte length and fails when
the lengths differ or the mask holds a character outside `{x, X, ?}` —
but it accepts empty inputs, returning the empty `Pattern` exactly when
its inputs are empty. -/
theorem C8_constructor_invariants :
    (∀ (parts : List (List Char)) (p : Pattern), Pattern.new parts = .ok p →
      p.bytes ≠ [] ∧ p.mask.length = p.bytes.length) ∧
    (∀ parts : List (List Char),
      Pattern.new parts = .error .EmptyPattern ↔ parts = []) ∧
    (∀ (bytes : List Nat) (mask : List Char) (q : Pattern),
      Pattern.from_bytes_and_mask bytes mask = .ok q →
      q.mask.length = q.bytes.length ∧ (q.bytes = [] ↔ bytes = [])) ∧
    (∀ (bytes : List Nat) (mask : List Char), bytes.length ≠ mask.length →
      Pattern.from_bytes_and_mask bytes mask = .error .MaskLengthMismatch) ∧
    (∀ (bytes : List Nat) (mask : List Char) (c : Char), c ∈ mask →
      c ≠ 'x' → c ≠ 'X' → c ≠ '?' →
      ∃ e, Pattern.from_bytes_and_mask bytes mask = .error e) := by
  refine ⟨?_, ?_, ?_, ?_, ?_⟩
  · intro parts p h
    rw [Pattern.new] at h
    split at h
    · cases h
    · rename_i bytes mask heq
      split at h
      · cases h
      · rename_i hne
        cases h
        obtain ⟨h1, h2⟩ := newLoop_ok_lengths parts [] [] _ heq
        refine ⟨hne, ?_⟩
        simp only [List.length_nil, Nat.zero_add] at h1 h2
        show _ = _
        rw [h1, h2]
  · intro parts
    constructor
    · intro h
      rw [Pattern.new] at h
      split at h
      · rename_i e heq
        cases h
        exact absurd heq (newLoop_ne_emptyPattern parts [] [])
      · rename_i bytes mask heq
        split at h
        · rename_i hb
          obtain ⟨h1, h2⟩ := newLoop_ok_lengths parts [] [] _ heq
          subst hb
          simp at h1
          exact List.length_eq_zero.mp h1.symm
        · cases h
    · intro h
      subst h
      rfl
  · intro bytes mask q h
    rw [Pattern.from_bytes_and_mask] at h
    split at h
    · cases h
    · rename_i hlen
      rw [not_ne_iff] at hlen
      split at h
      · rename_i pbytes heq
        cases h
        have hl := fbmLoop_ok_length mask bytes _ heq
        refine ⟨hl.symm, ?_⟩
        show pbytes = [] ↔ bytes = []
        rw [← List.length_eq_zero, ← List.length_eq_zero, hl]
        omega
      · cases h
  · intro bytes mask h
    rw [Pattern.from_bytes_and_mask, if_pos h]
  · intro bytes mask c hc h1 h2 h3
    rw [Pattern.from_bytes_and_mask]
    split
    · exact ⟨.MaskLengthMismatch, rfl⟩
    · obtain ⟨e, he⟩ := fbmLoop_err_of_bad_char mask bytes c hc h1 h2 h3
      rw [he]
      exact ⟨e, rfl⟩

/-- Witness for C8: a concrete run through each conjunct of the amended
constructor-invariant theorem. -/
theorem C8_constructor_invariants_witness :
    ((Pattern.mk [some 72] ['x']).bytes ≠ [] ∧
      (Pattern.mk [some 72] ['x']).mask.length = (Pattern.mk [some 72] ['x']).bytes.length) ∧
    (Pattern.new [] = .error .EmptyPattern) ∧
    ((Pattern.mk [some 72] ['x']).mask.length = (Pattern.mk [some 72] ['x']).bytes.length ∧
      ((Pattern.mk [some 72] ['x']).bytes = [] ↔ ([72] : List Nat) = [])) ∧
    (Pattern.from_bytes_and_mask [1] [] = .error .MaskLengthMismatch) ∧
    (∃ e, Pattern.from_bytes_and_mask [1] ['z'] = .error e) :=
  ⟨C8_constructor_invariants.1 [['4', '8']] ⟨[some 72], ['x']⟩ (by rfl),
   (C8_constructor_invariants.2.1 []).mpr rfl,
   C8_constructor_invariants.2.2.1 [72] ['x'] ⟨[some 72], ['x']⟩ (by rfl),
   C8_constructor_invariants.2.2.2.1 [1] [] (by decide),
   C8_constructor_invariants.2.2.2.2 [1] ['z'] 'z' (by decide) (by decide) (by decide) (by decide)⟩

section ExtractStringsSpec

/-- Reading an element of a dropped list. -/
lemma getD_drop (l : List Nat) (m k : Nat) : (l.drop m).getD k 0 = l.getD (m + k) 0 := by
  simp [List.getD_eq_getElem?_getD, List.getElem?_drop]

/-- Cons form of `drop` at an in-range index. -/
lemma drop_cons_getD (l : List Nat) (i : Nat) (h : i < l.length) :
    l.drop i = l.getD i 0 :: l.drop (i + 1) := by
  rw [List.drop_eq_getElem_cons h]
  simp [List.getD_eq_getElem?_getD, List.getElem?_eq_getElem h]

/-- Successor form of `take` at an in-range index. -/
lemma take_succ_getD (l : List Nat) (k : Nat) (h : k < l.length) :
    l.take (k + 1) = l.take k ++ [l.getD k 0] := by
  rw [List.take_succ]
  simp [List.getElem?_eq_getElem h, List.getD_eq_getElem?_getD]

/-- If all bytes in `[s, e)` are printable and byte `e` terminates the run
(end of buffer or non-printable), the maximal run at `s` is that slice. -/
lemma runAt_eq_take (data : List Nat) (e : Nat) (he : e ≤ data.length)
    (hend : e = data.length ∨ isPrintableByte (data.getD e 0) = false) :
    ∀ d s, e - s = d → s ≤ e →
      (∀ k, s ≤ k → k < e → isPrintableByte (data.getD k 0) = true) →
      runAt data s = (data.drop s).take (e - s) := by
  intro d
  induction d with
  | zero =>
    intro s hd hse _
    have hes : s = e := by omega
    subst hes
    have h0 : s - s = 0 := by omega
    rw [h0, List.take_zero, runAt]
    rcases hend with h | h
    · rw [h, List.drop_length]
      rfl
    · by_cases hsl : s < data.length
      · rw [drop_cons_getD data s hsl, List.takeWhile_cons, h]
        simp
      · have hsn : s = data.length := by omega
        rw [hsn, List.drop_length]
        rfl
  | succ d ihd =>
    intro s hd hse hall
    have hsl : s < data.length := by omega
    rw [runAt, drop_cons_getD data s hsl, List.takeWhile_cons,
      hall s le_rfl (by omega)]
    have hrec : runAt data (s + 1) = (data.drop (s + 1)).take (e - (s + 1)) :=
      ihd (s + 1) (by omega) (by omega) (fun k hk1 hk2 => hall k (by omega) hk2)
    rw [runAt] at hrec
    rw [if_pos rfl, hrec]
    have hsplit : e - s = (e - (s + 1)) + 1 := by omega
    rw [hsplit, List.take_succ_cons]

/-- A non-printable head byte gives an empty run. -/
lemma runAt_eq_nil (data : List Nat) (i : Nat) (hi : i < data.length)
    (h : isPrintableByte (data.getD i 0) = false) : runAt data i = [] := by
  rw [runAt, drop_cons_getD data i hi, List.takeWhile_cons, h]
  simp

/-- An offset whose predecessor is printable is not a run start, so it
contributes nothing. -/
lemma posContrib_eq_none_of_pred (data : List Nat) (base k : Nat) (hk : 1 ≤ k)
    (h : isPrintableByte (data.getD (k - 1) 0) = true) :
    posContrib data base k = none := by
  rw [posContrib, if_neg]
  intro hcond
  rcases hcond.1 with h0 | hpred
  · omega
  · rw [h] at hpred
    cases hpred

/-- Past the end of the buffer the spec-side list is empty. -/
lemma terminatedRunsFrom_stop (data : List Nat) (base i : Nat) (h : data.length ≤ i) :
    terminatedRunsFrom data base i = [] := by
  rw [terminatedRunsFrom]
  have : data.length - i = 0 := by omega
  rw [this]
  rfl

/-- One-step unfolding of the spec-side list. -/
lemma terminatedRunsFrom_succ (data : List Nat) (base i : Nat) (h : i < data.length) :
    terminatedRunsFrom data base i =
      (posContrib data base i).toList ++ terminatedRunsFrom data base (i + 1) := by
  rw [terminatedRunsFrom, terminatedRunsFrom]
  have h1 : data.length - i = (data.length - (i + 1)) + 1 := by omega
  rw [h1, List.range'_succ]
  cases hp : posContrib data base i with
  | none => simp [List.filterMap_cons, hp]
  | some r => simp [List.filterMap_cons, hp]

/-- Skipping a stretch of non-contributing offsets. -/
lemma terminatedRunsFrom_skip (data : List Nat) (base : Nat) :
    ∀ d a b, a ≤ b → b - a = d →
      (∀ k, a ≤ k → k < b → posContrib data base k = none) →
      terminatedRunsFrom data base a = terminatedRunsFrom data base b := by
  intro d
  induction d with
  | zero =>
    intro a b hab hd _
    have : a = b := by omega
    rw [this]
  | succ d ih =>
    intro a b hab hd hnone
    by_cases ha : a < data.length
    · rw [terminatedRunsFrom_succ data base a ha, hnone a le_rfl (by omega)]
      exact ih (a + 1) b (by omega) (by omega) (fun k hk1 hk2 => hnone k (by omega) hk2)
    · rw [terminatedRunsFrom_stop data base a (by omega),
        terminatedRunsFrom_stop data base b (by omega)]

/-- The slice `[s, i)` of the buffer, as held in `current_string`. -/
lemma slice_length (data : List Nat) (s i : Nat) (hsi : s ≤ i) (hi : i ≤ data.length) :
    ((data.drop s).take (i - s)).length = i - s := by
  rw [List.length_take, List.length_drop]
  omega

/-- Main invariant of the `extract_strings` loop. Part one: from a state
with an empty `current_string` at a run boundary, the loop appends exactly
the spec-side list from the current offset. Part two: from a state inside
a printable run that started at `s`, it appends exactly the spec-side list
from `s`. -/
lemma extractLoop_spec (data : List Nat) (base : Nat) :
    ∀ fuel i, data.length - i = fuel → i ≤ data.length →
      ((i = 0 ∨ isPrintableByte (data.getD (i - 1) 0) = false) →
        ∀ start acc, extractLoop base (data.drop i) i [] start acc =
          acc ++ terminatedRunsFrom data base i) ∧
      (∀ s, s < i → (s = 0 ∨ isPrintableByte (data.getD (s - 1) 0) = false) →
        (∀ k, s ≤ k → k < i → isPrintableByte (data.getD k 0) = true) →
        ∀ acc, extractLoop base (data.drop i) i ((data.drop s).take (i - s)) s acc =
          acc ++ terminatedRunsFrom data base s) := by
  intro fuel
  induction fuel with
  | zero =>
    intro i hfi hin
    have hi : i = data.length := by omega
    subst hi
    constructor
    · intro _ start acc
      rw [List.drop_length, extractLoop, terminatedRunsFrom_stop data base _ le_rfl,
        List.append_nil]
    · intro s hs hb hall acc
      rw [List.drop_length, extractLoop]
      have hskip : terminatedRunsFrom data base s = [] := by
        rw [terminatedRunsFrom_skip data base (data.length - s) s data.length (by omega) rfl,
          terminatedRunsFrom_stop data base _ le_rfl]
        intro k hk1 hk2
        rcases Nat.lt_or_ge s k with hlt | hge
        · exact posContrib_eq_none_of_pred data base k (by omega)
            (hall (k - 1) (by omega) (by omega))
        · have hks : k = s := by omega
          rw [hks, posContrib, if_neg]
          intro hcond
          have hrun : runAt data s = (data.drop s).take (data.length - s) :=
            runAt_eq_take data data.length le_rfl (Or.inl rfl)
              (data.length - s) s rfl (by omega) (fun j hj1 hj2 => hall j hj1 hj2)
          have hlen : (runAt data s).length = data.length - s := by
            rw [hrun]
            exact slice_length data s data.length (by omega) le_rfl
          have := hcond.2.2
          omega
      rw [hskip, List.append_nil]
  | succ fuel ih =>
    intro i hfi hin
    have hilt : i < data.length := by omega
    have ihh := ih (i + 1) (by omega) (by omega)
    constructor
    · intro hb start acc
      rw [drop_cons_getD data i hilt, extractLoop]
      cases hc : isPrintableByte (data.getD i 0) with
      | true =>
        rw [if_pos rfl, if_pos (show (([] : List Nat).isEmpty = true) from rfl)]
        have harg : [data.getD i 0] = (data.drop i).take (i + 1 - i) := by
          rw [drop_cons_getD data i hilt]
          have : i + 1 - i = 1 := by omega
          rw [this]
          rfl
        rw [harg]
        exact ihh.2 i (by omega) hb
          (fun k hk1 hk2 => by
            have : k = i := by omega
            rw [this]; exact hc) acc
      | false =>
        rw [if_neg Bool.false_ne_true]
        simp only [List.length_nil]
        rw [if_neg (by omega)]
        have hnext := ihh.1 (Or.inr (by simpa using hc)) start acc
        rw [hnext, terminatedRunsFrom_succ data base i hilt]
        have hrni : runAt data i = [] := runAt_eq_nil data i hilt hc
        rw [posContrib, if_neg (fun hcond => by rw [hrni] at hcond; simp at hcond)]
        rfl
    · intro s hs hb hall acc
      have hcurlen : ((data.drop s).take (i - s)).length = i - s :=
        slice_length data s i (by omega) (by omega)
      have hcurne : ((data.drop s).take (i - s)).isEmpty = false := by
        rw [List.isEmpty_eq_false_iff_exists_mem]
        have : 0 < ((data.drop s).take (i - s)).length := by omega
        rcases List.exists_mem_of_length_pos this with ⟨x, hx⟩
        exact ⟨x, hx⟩
      rw [drop_cons_getD data i hilt, extractLoop]
      cases hc : isPrintableByte (data.getD i 0) with
      | true =>
        rw [if_pos rfl, hcurne, if_neg Bool.false_ne_true]
        have harg : (data.drop s).take (i - s) ++ [data.getD i 0] =
            (data.drop s).take (i + 1 - s) := by
          have h1 : i + 1 - s = (i - s) + 1 := by omega
          rw [h1, take_succ_getD (data.drop s) (i - s)
            (by rw [List.length_drop]; omega), getD_drop]
          have : s + (i - s) = i := by omega
          rw [this]
        rw [harg]
        exact ihh.2 s (by omega) hb
          (fun k hk1 hk2 => by
            rcases Nat.lt_or_ge k i with hk | hk
            · exact hall k hk1 hk
            · have : k = i := by omega
              rw [this]; exact hc) acc
      | false =>
        rw [if_neg Bool.false_ne_true, hcurlen]
        have hrun : runAt data s = (data.drop s).take (i - s) :=
          runAt_eq_take data i (by omega) (Or.inr hc) (i - s) s rfl (by omega) hall
        have hrlen : (runAt data s).length = i - s := by rw [hrun, hcurlen]
        by_cases h4 : 4 ≤ i - s
        · rw [if_pos h4]
          have hnext := ihh.1 (Or.inr (by simpa using hc))
            s (acc ++ [⟨base + s, (data.drop s).take (i - s), .Ascii, []⟩])
          rw [hnext, terminatedRunsFrom_succ data base s (by omega)]
          have hps : posContrib data base s =
              some ⟨base + s, (data.drop s).take (i - s), .Ascii, []⟩ := by
            rw [posContrib, if_pos ⟨hb, by omega, by omega⟩, hrun]
          rw [hps]
          have hskip : terminatedRunsFrom data base (s + 1) =
              terminatedRunsFrom data base (i + 1) := by
            refine terminatedRunsFrom_skip data base (i - s) (s + 1) (i + 1)
              (by omega) (by omega) ?_
            intro k hk1 hk2
            exact posContrib_eq_none_of_pred data base k (by omega)
              (hall (k - 1) (by omega) (by omega))
          rw [hskip]
          simp
        · rw [if_neg h4]
          have hnext := ihh.1 (Or.inr (by simpa using hc)) s acc
          rw [hnext, terminatedRunsFrom_succ data base s (by omega)]
          have hps : posContrib data base s = none := by
            rw [posContrib, if_neg]
            intro hcond
            have := hcond.2.1
            omega
          rw [hps]
          have hskip : terminatedRunsFrom data base (s + 1) =
              terminatedRunsFrom data base (i + 1) := by
            refine terminatedRunsFrom_skip data base (i - s) (s + 1) (i + 1)
              (by omega) (by omega) ?_
            intro k hk1 hk2
            exact posContrib_eq_none_of_pred data base k (by omega)
              (hall (k - 1) (by omega) (by omega))
          rw [hskip]
          rfl

end ExtractStringsSpec

/-- Counterexample to claim C5 as stated: a buffer that is one single
printable run of length 4 reaching the end of the buffer produces no
`StringReference` at all, although the claim requires one. -/
theorem C5_counterexample_trailing_run_dropped :
    extract_strings [65, 66, 67, 68] 4096 = [] ∧
      (∀ b ∈ [65, 66, 67, 68], isPrintableByte b = true) ∧
      ([65, 66, 67, 68] : List Nat).length = 4 := by
  refine ⟨by decide, by decide, rfl⟩

/-- Claim C5 (amended): `extract_strings` emits exactly one
`StringReference` (with `Ascii` encoding and address
`region_base + run_start`) for every maximal printable-ASCII run of
length at least 4 that is terminated by a non-printable byte strictly
inside the buffer; runs shorter than 4 bytes are discarded, and a run
that extends to the very end of the buffer is discarded as well because
the loop never flushes after the last byte. -/
theorem C5_extract_strings_terminated_runs (data : List Nat) (base : Nat) :
    extract_strings data base = terminatedRunStrings data base := by
  rw [extract_strings, terminatedRunStrings]
  have h := (extractLoop_spec data base (data.length - 0) 0 rfl (Nat.zero_le _)).1
    (Or.inl rfl) 0 []
  rw [List.drop_zero] at h
  rw [h, List.nil_append]

section VTableSpec

/-- Counterexample to claim C3 as stated: on a buffer of four valid
pointer-to-prologue slots followed by a failing slot, scanning with
`min_functions = 2` (which is `≤ 4`) yields three vtables — the scan also
accepts the suffix tables starting at the second and third slots — not
exactly one. -/
theorem C3_counterexample_smaller_min_functions :
    ({ VTableScanConfig.default with min_functions := 2 } : VTableScanConfig).min_functions ≤ 4 ∧
    (∀ k ∈ [0, 1, 2, 3],
      is_valid_function_ptr (read_pointer vtableBuffer (8 * k)) vtableBuffer 4096 = true) ∧
    is_valid_function_ptr (read_pointer vtableBuffer 32) vtableBuffer 4096 = false ∧
    (scan_vtables { VTableScanConfig.default with min_functions := 2 } vtableBuffer 4096).length
      = 3 ∧
    (scan_vtables { VTableScanConfig.default with min_functions := 2 } vtableBuffer 4096).length
      ≠ 1 := by
  decide

/-- Claim C3 (amended): on a buffer of four consecutive valid
pointer-to-prologue slots followed by a slot failing the
function-pointer heuristic, scanning with `min_functions = 4` yields
exactly one vtable, with `function_count = 4`; with a smaller
`min_functions` the scan additionally reports the suffix tables starting
at later slots. -/
theorem C3_scan_vtables_exactly_one_at_min_four :
    (∀ k ∈ [0, 1, 2, 3],
      is_valid_function_ptr (read_pointer vtableBuffer (8 * k)) vtableBuffer 4096 = true) ∧
    is_valid_function_ptr (read_pointer vtableBuffer 32) vtableBuffer 4096 = false ∧
    scan_vtables { VTableScanConfig.default with min_functions := 4 } vtableBuffer 4096
      = [vt40] ∧
    vt40.function_count = 4 ∧
    (scan_vtables VTableScanConfig.default vtableBuffer 4096).map VTable.function_count
      = [4, 3, 2] := by
  decide

/-- Adding a function always accounts one extra pointer width in `size`,
whatever the previous size was. -/
lemma add_function_size (vt : VTable) (a i : Nat) :
    (vt.add_function a i).size =
      if (vt.add_function a i).functions.isEmpty then 0
      else ((vt.add_function a i).functions.length + 1) * ptrSize := by
  rw [VTable.add_function]
  simp [List.length_append]
  ring

/-- The function-collection loop preserves the size shape. -/
lemma vtFunctionLoop_size (data : List Nat) (base_addr : Nat) :
    ∀ remaining function_index current_offset vt,
      (vt.size = if vt.functions.isEmpty then 0 else (vt.functions.length + 1) * ptrSize) →
      ((vtFunctionLoop data base_addr remaining function_index current_offset vt).size =
        if (vtFunctionLoop data base_addr remaining function_index current_offset
            vt).functions.isEmpty then 0
        else ((vtFunctionLoop data base_addr remaining function_index current_offset
            vt).functions.length + 1) * ptrSize) := by
  intro remaining
  induction remaining with
  | zero =>
    intro function_index current_offset vt h
    rw [vtFunctionLoop]
    exact h
  | succ r ih =>
    intro function_index current_offset vt h
    rw [vtFunctionLoop]
    by_cases hroom : current_offset + ptrSize ≤ data.length
    · rw [if_pos hroom]
      by_cases hvalid :
          is_valid_function_ptr (read_pointer data current_offset) data base_addr = true
      · rw [if_pos hvalid]
        exact ih _ _ _ (add_function_size vt _ _)
      · rw [if_neg hvalid]
        exact h
    · rw [if_neg hroom]
      exact h

/-- Counterexample to claim C6 as stated: the vtable found at offset 0 of
the synthetic buffer has no RTTI type-info pointer, yet its `size` is
40 = (4 + 1) × 8, not `function_count × pointer size` = 32: the extra
pointer width is added unconditionally. -/
theorem C6_counterexample_size_without_rtti :
    analyze_potential_vtable VTableScanConfig.default vtableBuffer 4096 0 = some vt40 ∧
    vt40.type_info_ptr = none ∧
    vt40.size ≠ vt40.function_count * ptrSize := by
  decide

/-- Claim C6 (amended): every vtable returned by the scanner with at
least one function has `size = (function_count + 1) × pointer size`: one
extra pointer width is always reserved for the RTTI slot, whether or not
`type_info_ptr` is present (a returned vtable with zero functions, which
requires `min_functions = 0`, keeps the initial size 0). -/
theorem C6_scanner_size_always_adds_rtti_slot
    (cfg : VTableScanConfig) (data : List Nat) (base : Nat) (vt : VTable)
    (hmem : vt ∈ scan_vtables cfg data base) :
    vt.size = if vt.functions.isEmpty then 0
      else (vt.function_count + 1) * ptrSize := by
  rw [scan_vtables] at hmem
  rw [List.mem_filterMap] at hmem
  obtain ⟨i, _, hi⟩ := hmem
  split at hi
  · cases hi
  · simp only [analyze_potential_vtable] at hi
    repeat' split at hi
    all_goals
      first
        | (rw [Option.some.injEq] at hi
           subst hi
           exact vtFunctionLoop_size data base _ _ _ _ rfl)
        | cases hi

/-- Witness for C6: the size shape evaluated on the vtable found in the
synthetic buffer. -/
theorem C6_scanner_size_witness :
    vt40.size = if vt40.functions.isEmpty then 0 else (vt40.function_count + 1) * ptrSize :=
  C6_scanner_size_always_adds_rtti_slot
    { VTableScanConfig.default with min_functions := 4 } vtableBuffer 4096 vt40 (by decide)

/-- Element lookup below the length is `some` of the defaulted read. -/
lemma getElem?_eq_some_getD (l : List VirtualFunction) (i : Nat) (h : i < l.length) :
    l[i]? = some (l.getD i ⟨0, 0⟩) := by
  simp [List.getElem?_eq_getElem h, List.getD_eq_getElem?_getD]

/-- Claim C7: `is_derived_vtable(base, derived)` is true exactly when the
candidate has at least as many functions and the first
`base.function_count` function addresses agree index by index; in
particular base `[A,B]` accepts candidate `[A,B,C]` and rejects
`[A,X,C]`. -/
theorem C7_is_derived_vtable_spec :
    (∀ base derived : VTable,
      is_derived_vtable base derived = true ↔
        (base.function_count ≤ derived.function_count ∧
          ∀ i, i < base.function_count →
            (base.functions.getD i ⟨0, 0⟩).address =
              (derived.functions.getD i ⟨0, 0⟩).address)) ∧
    is_derived_vtable vtAB vtABC = true ∧
    is_derived_vtable vtAB vtAXC = false := by
  refine ⟨?_, by decide, by decide⟩
  intro base derived
  rw [is_derived_vtable]
  by_cases hlt : derived.function_count < base.function_count
  · rw [if_pos hlt]
    constructor
    · intro h
      cases h
    · intro h
      exact absurd h.1 (by omega)
  · rw [if_neg hlt]
    rw [List.all_eq_true]
    constructor
    · intro h
      refine ⟨by omega, ?_⟩
      intro i hi
      have hid : i < derived.functions.length := by
        have : base.functions.length ≤ derived.functions.length := by
          exact Nat.le_of_not_lt hlt
        have hib : i < base.functions.length := hi
        omega
      have hx := h i (List.mem_range.mpr hi)
      rw [VTable.get_function, VTable.get_function,
        getElem?_eq_some_getD base.functions i hi,
        getElem?_eq_some_getD derived.functions i hid] at hx
      simpa using hx
    · rintro ⟨hc, hall⟩ i hi
      rw [List.mem_range] at hi
      have hid : i < derived.functions.length := by
        have hcl : base.functions.length ≤ derived.functions.length := hc
        omega
      rw [VTable.get_function, VTable.get_function,
        getElem?_eq_some_getD base.functions i hi,
        getElem?_eq_some_getD derived.functions i hid]
      simpa using hall i hi

/-- Membership after map-insert: the element is the new binding or an old
one. -/
lemma mem_insertReplace {α : Type} (m : List (Nat × α)) (k : Nat) (v : α) (x : Nat × α)
    (hx : x ∈ insertReplace m k v) : x = (k, v) ∨ x ∈ m := by
  rw [insertReplace] at hx
  split at hx
  · rw [List.mem_map] at hx
    obtain ⟨p, hp, hpe⟩ := hx
    by_cases hk : (p.1 == k) = true
    · rw [if_pos hk] at hpe
      left
      exact hpe.symm
    · rw [if_neg hk] at hpe
      right
      rw [← hpe]
      exact hp
  · rw [List.mem_append] at hx
    rcases hx with h | h
    · right
      exact h
    · left
      simpa using h

/-- Every class stored after `add_class` is the new class or an old one. -/
lemma mem_all_classes_add (h : ClassHierarchy) (c ci : ClassInfo)
    (hci : ci ∈ (h.add_class c).all_classes) : ci = c ∨ ci ∈ h.all_classes := by
  rw [ClassHierarchy.add_class, ClassHierarchy.all_classes, List.mem_map] at hci
  obtain ⟨p, hp, hpe⟩ := hci
  rcases mem_insertReplace _ _ _ p hp with he | hm
  · left
    rw [← hpe, he]
  · right
    rw [ClassHierarchy.all_classes, List.mem_map]
    exact ⟨p, hm, hpe⟩

/-- A fold of `add_class` over classes with empty base lists keeps every
stored base list empty. -/
lemma foldl_add_class_base_empty (f : VTable → ClassInfo)
    (hf : ∀ vt, (f vt).base_classes = []) :
    ∀ (vts : List VTable) (h : ClassHierarchy),
      (∀ ci ∈ h.all_classes, ci.base_classes = []) →
      ∀ ci ∈ (vts.foldl (fun h vt => h.add_class (f vt)) h).all_classes,
        ci.base_classes = [] := by
  intro vts
  induction vts with
  | nil =>
    intro h hh ci hci
    exact hh ci hci
  | cons vt rest ih =>
    intro h hh ci hci
    rw [List.foldl_cons] at hci
    refine ih (h.add_class (f vt)) ?_ ci hci
    intro cj hcj
    rcases mem_all_classes_add h (f vt) cj hcj with he | hm
    · rw [he]
      exact hf vt
    · exact hh cj hm

/-- Claim C9: `reconstruct_hierarchy` never populates `base_classes` —
every stored `ClassInfo` has an empty base list — and consequently
`find_root_classes` returns every class of the hierarchy. -/
theorem C9_base_classes_empty_and_roots_vacuous (vtables : List VTable) :
    (∀ ci ∈ (reconstruct_hierarchy vtables).all_classes, ci.base_classes = []) ∧
    (reconstruct_hierarchy vtables).find_root_classes =
      (reconstruct_hierarchy vtables).all_classes := by
  have hbase : ∀ ci ∈ (reconstruct_hierarchy vtables).all_classes, ci.base_classes = [] := by
    intro ci hci
    exact foldl_add_class_base_empty _ (fun vt => rfl) vtables ClassHierarchy.new
      (by intro x hx; cases hx) ci hci
  refine ⟨hbase, ?_⟩
  rw [ClassHierarchy.find_root_classes]
  rw [List.filter_eq_self]
  intro a ha
  rw [hbase a ha]
  rfl

/-- The walk never advances past an address answered with a zero-size
region, so the loop runs out of any amount of fuel. -/
lemma enumLoop_zeroSize : ∀ fuel addr regions,
    enumLoop zeroSizeQuery fuel addr regions = none := by
  intro fuel
  induction fuel with
  | zero =>
    intro addr regions
    rfl
  | succ f ih =>
    intro addr regions
    exact ih _ _

/-- Claim C4 (code bug): the loop of `enumerate_regions` stops when the
query signals no further region, but it has no zero-size defensive check:
against a query that keeps answering with a zero-size region at the
queried address the cursor never advances and the loop never terminates
(no amount of fuel completes it), contrary to the spec's required
behaviour. -/
theorem C4_enumerate_regions_diverges_without_zero_size_guard :
    (∀ fuel, enumerate_regions zeroSizeQuery fuel = none) ∧
    enumerate_regions (fun _ => none) 1 = some [] := by
  constructor
  · intro fuel
    exact enumLoop_zeroSize fuel 0 []
  · rfl

end VTableSpec

section MatcherEquivalence

/-- A wildcard-free byte list is a mapped list of exact bytes. -/
lemma all_isSome_exists_map (l : List (Option Nat)) (h : l.all Option.isSome = true) :
    ∃ w : List Nat, l = w.map some := by
  induction l with
  | nil => exact ⟨[], rfl⟩
  | cons hd tl ih =>
    rw [List.all_cons, Bool.and_eq_true] at h
    obtain ⟨w, hw⟩ := ih h.2
    cases hd with
    | none => simp at h
    | some b => exact ⟨b :: w, by rw [List.map_cons, hw]⟩

/-- Defaulted read through `map some`. -/
lemma getD_map_some (w : List Nat) (k : Nat) (hk : k < w.length) :
    (w.map some).getD k none = some (w.getD k 0) := by
  simp [List.getD_eq_getElem?_getD, List.getElem?_eq_getElem hk]

/-- Out-of-range defaulted read through `map some`. -/
lemma getD_map_some_ge (w : List Nat) (k : Nat) (hk : w.length ≤ k) :
    (w.map some).getD k none = none := by
  simp [List.getD_eq_getElem?_getD, List.getElem?_eq_none (by simpa using hk)]

/-- Pattern length of a wildcard-free pattern. -/
lemma len_of_map_some (p : Pattern) (w : List Nat) (hw : p.bytes = w.map some) :
    p.len = w.length := by
  rw [Pattern.len, hw, List.length_map]

/-- Pointwise form of `matches_at` for a wildcard-free pattern. -/
lemma matches_at_pointwise (p : Pattern) (w data : List Nat) (o : Nat)
    (hw : p.bytes = w.map some) :
    p.matches_at data o = true ↔
      (o + w.length ≤ data.length ∧
        ∀ k, k < w.length → data.getD (o + k) 0 = w.getD k 0) := by
  rw [matches_at_spec, len_of_map_some p w hw, hw]
  constructor
  · rintro ⟨hb, h⟩
    refine ⟨hb, ?_⟩
    intro k hk
    exact h k (by simpa using hk) (w.getD k 0) (getD_map_some w k hk)
  · rintro ⟨hb, h⟩
    refine ⟨hb, ?_⟩
    intro i hi b hb2
    have hiw : i < w.length := by simpa using hi
    rw [getD_map_some w i hiw] at hb2
    cases hb2
    exact h i hiw

/-- Defaulted read of a `take` below the cut. -/
lemma getD_take (l : List Nat) (m k d : Nat) (h : k < m) :
    (l.take m).getD k d = l.getD k d := by
  simp [List.getD_eq_getElem?_getD, List.getElem?_take, h]

/-- Slice equality is pointwise agreement. -/
lemma slice_eq_iff (data w : List Nat) (o : Nat) (hb : o + w.length ≤ data.length) :
    ((data.drop o).take w.length = w) ↔
      ∀ k, k < w.length → data.getD (o + k) 0 = w.getD k 0 := by
  constructor
  · intro h k hk
    have := congrArg (fun l => l.getD k 0) h
    simp only at this
    rw [getD_take _ _ _ _ hk, getD_drop] at this
    exact this
  · intro h
    apply List.ext_getElem
    · rw [List.length_take, List.length_drop]
      omega
    · intro k hk1 hk2
      have hkw : k < w.length := hk2
      have := h k hkw
      rw [List.getD_eq_getElem?_getD, List.getD_eq_getElem?_getD,
        List.getElem?_eq_getElem (show o + k < data.length by omega),
        List.getElem?_eq_getElem hkw] at this
      simp only [Option.getD_some] at this
      simp only [List.getElem_take, List.getElem_drop]
      exact this

/-- A suffix of given length of an append is its right part. -/
lemma suffix_append_length (w A B : List Nat) (hlen : B.length = w.length) :
    w <:+ A ++ B ↔ w = B := by
  constructor
  · rintro ⟨t, ht⟩
    have hl : t.length = A.length := by
      have := congrArg List.length ht
      simp at this
      omega
    exact (List.append_inj ht hl).2
  · intro h
    rw [h]
    exact List.suffix_append A B

/-- Being a suffix of `data.take (o + |w|)` is exactly matching the slice
at `o`. -/
lemma suffix_take_iff (data w : List Nat) (o : Nat) (hb : o + w.length ≤ data.length) :
    w <:+ data.take (o + w.length) ↔ (data.drop o).take w.length = w := by
  rw [List.take_add, suffix_append_length]
  · exact ⟨fun h => h.symm, fun h => h.symm⟩
  · rw [List.length_take, List.length_drop]
    omega

/-- Shorter suffixes of a common list are suffixes of longer ones. -/
lemma suffix_of_suffix_length_le {s1 s2 X : List Nat} (h1 : s1 <:+ X) (h2 : s2 <:+ X)
    (hl : s1.length ≤ s2.length) : s1 <:+ s2 := by
  obtain ⟨t1, ht1⟩ := h1
  obtain ⟨t2, ht2⟩ := h2
  have heq : t1 ++ s1 = t2 ++ s2 := ht1.trans ht2.symm
  have hlen : t2.length ≤ t1.length := by
    have := congrArg List.length heq
    simp at this
    omega
  have h3 : s1 = s2.drop (t1.length - t2.length) := by
    have e1 : (t1 ++ s1).drop t1.length = s1 := List.drop_left t1 s1
    rw [heq, show t1.length = t2.length + (t1.length - t2.length) by omega,
      List.drop_append] at e1
    exact e1.symm
  rw [h3]
  exact List.drop_suffix _ _

/-- Growing a suffix by one final element. -/
lemma suffix_concat_iff (s X : List Nat) (a c : Nat) :
    (s ++ [a]) <:+ (X ++ [c]) ↔ a = c ∧ s <:+ X := by
  constructor
  · rintro ⟨t, ht⟩
    rw [← List.append_assoc] at ht
    have ha : a = c := by
      have := congrArg List.getLast? ht
      simp [List.getLast?_concat] at this
      exact this
    subst ha
    have hl : (t ++ s).length = X.length := by
      have := congrArg List.length ht
      simp only [List.length_append, List.length_cons, List.length_nil] at this ⊢
      omega
    have := (List.append_inj ht hl).1
    exact ⟨rfl, ⟨t, this⟩⟩
  · rintro ⟨ha, t, ht⟩
    exact ⟨t, by rw [← List.append_assoc, ht, ha]⟩

/-- Extending a matched prefix of the pattern by one data byte. -/
lemma take_succ_suffix_iff (w X : List Nat) (c k : Nat) (hk : k < w.length) :
    w.take (k + 1) <:+ X ++ [c] ↔ (w.take k <:+ X ∧ w.getD k 0 = c) := by
  rw [take_succ_getD w k hk, suffix_concat_iff]
  constructor
  · rintro ⟨h1, h2⟩
    exact ⟨h2, h1⟩
  · rintro ⟨h1, h2⟩
    exact ⟨h2, h1⟩

/-- The bad-character fold computes the rightmost index of each known
byte: a `some pos` answer points at an occurrence with nothing equal to
the right of it, a `none` answer means the byte never occurs exactly. -/
lemma badCharFold_spec :
    ∀ (l : List (Option Nat)) (b : Nat),
      (∀ pos, (l.enum.foldl badCharStep (fun _ => none)) b = some pos →
        pos < l.length ∧ l.getD pos none = some b ∧
          ∀ t, pos < t → t < l.length → l.getD t none ≠ some b) ∧
      ((l.enum.foldl badCharStep (fun _ => none)) b = none →
        ∀ t, t < l.length → l.getD t none ≠ some b) := by
  intro l
  induction l using List.reverseRecOn with
  | nil =>
    intro b
    constructor
    · intro pos h
      cases h
    · intro _ t ht
      cases ht
  | append_singleton l x ih =>
    intro b
    have hfold : ((l ++ [x]).enum.foldl badCharStep (fun _ => none)) =
        badCharStep (l.enum.foldl badCharStep (fun _ => none)) (l.length, x) := by
      rw [List.enum_append, List.foldl_append]
      rfl
    have hgetD_lt : ∀ t, t < l.length → (l ++ [x]).getD t none = l.getD t none := by
      intro t ht
      rw [List.getD_append _ _ _ _ ht]
    have hgetD_last : (l ++ [x]).getD l.length none = x := by
      simp [List.getD_eq_getElem?_getD]
    cases x with
    | none =>
      have hstep : badCharStep (l.enum.foldl badCharStep (fun _ => none)) (l.length, none) =
          l.enum.foldl badCharStep (fun _ => none) := rfl
      rw [hfold, hstep]
      constructor
      · intro pos h
        obtain ⟨h1, h2, h3⟩ := (ih b).1 pos h
        refine ⟨by simp; omega, by rw [hgetD_lt pos h1]; exact h2, ?_⟩
        intro t ht1 ht2
        simp only [List.length_append, List.length_cons, List.length_nil] at ht2
        rcases Nat.lt_or_ge t l.length with hlt | hge
        · rw [hgetD_lt t hlt]
          exact h3 t ht1 hlt
        · have : t = l.length := by omega
          rw [this, hgetD_last]
          intro hcon
          cases hcon
      · intro h t ht1
        simp only [List.length_append, List.length_cons, List.length_nil] at ht1
        rcases Nat.lt_or_ge t l.length with hlt | hge
        · rw [hgetD_lt t hlt]
          exact (ih b).2 h t hlt
        · have : t = l.length := by omega
          rw [this, hgetD_last]
          intro hcon
          cases hcon
    | some b0 =>
      have hstep : badCharStep (l.enum.foldl badCharStep (fun _ => none)) (l.length, some b0) =
          fun x => if x = b0 then some l.length
            else (l.enum.foldl badCharStep (fun _ => none)) x := rfl
      rw [hfold, hstep]
      simp only []
      by_cases hb : b = b0
      · subst hb
        rw [if_pos rfl]
        constructor
        · intro pos h
          rw [Option.some.injEq] at h
          subst h
          refine ⟨by simp, by rw [hgetD_last], ?_⟩
          intro t ht1 ht2
          simp only [List.length_append, List.length_cons, List.length_nil] at ht2
          omega
        · intro h
          cases h
      · rw [if_neg hb]
        constructor
        · intro pos h
          obtain ⟨h1, h2, h3⟩ := (ih b).1 pos h
          refine ⟨by simp; omega, by rw [hgetD_lt pos h1]; exact h2, ?_⟩
          intro t ht1 ht2
          simp only [List.length_append, List.length_cons, List.length_nil] at ht2
          rcases Nat.lt_or_ge t l.length with hlt | hge
          · rw [hgetD_lt t hlt]
            exact h3 t ht1 hlt
          · have : t = l.length := by omega
            rw [this, hgetD_last]
            intro hcon
            rw [Option.some.injEq] at hcon
            exact hb hcon.symm
        · intro h t ht1
          simp only [List.length_append, List.length_cons, List.length_nil] at ht1
          rcases Nat.lt_or_ge t l.length with hlt | hge
          · rw [hgetD_lt t hlt]
            exact (ih b).2 h t hlt
          · have : t = l.length := by omega
            rw [this, hgetD_last]
            intro hcon
            rw [Option.some.injEq] at hcon
            exact hb hcon.symm

/-- The bad-character table of a pattern: `some pos` answers point at the
rightmost exact occurrence. -/
lemma build_bad_char_table_spec (p : Pattern) (b : Nat) :
    (∀ pos, build_bad_char_table p b = some pos →
      pos < p.bytes.length ∧ p.bytes.getD pos none = some b ∧
        ∀ t, pos < t → t < p.bytes.length → p.bytes.getD t none ≠ some b) ∧
    (build_bad_char_table p b = none →
      ∀ t, t < p.bytes.length → p.bytes.getD t none ≠ some b) :=
  badCharFold_spec p.bytes b

/-- Past the last window the canonical match list is empty. -/
lemma offsetMatches_stop (p : Pattern) (data : List Nat) (i : Nat)
    (h : data.length - p.len + 1 ≤ i) : offsetMatches p data i = [] := by
  rw [offsetMatches]
  have : data.length - p.len + 1 - i = 0 := by omega
  rw [this]
  rfl

/-- One-step unfolding of the canonical match list. -/
lemma offsetMatches_succ (p : Pattern) (data : List Nat) (i : Nat)
    (h : i < data.length - p.len + 1) :
    offsetMatches p data i =
      (if p.matches_at data i then [(⟨i, p.len⟩ : PatternMatch)] else []) ++
        offsetMatches p data (i + 1) := by
  rw [offsetMatches, offsetMatches]
  have h1 : data.length - p.len + 1 - i = (data.length - p.len + 1 - (i + 1)) + 1 := by omega
  rw [h1, List.range'_succ]
  cases hm : p.matches_at data i with
  | true => simp [List.filterMap_cons, hm]
  | false => simp [List.filterMap_cons, hm]

/-- Skipping a stretch of non-matching offsets. -/
lemma offsetMatches_skip (p : Pattern) (data : List Nat) :
    ∀ d a b, a ≤ b → b - a = d →
      (∀ o, a ≤ o → o < b → p.matches_at data o = false) →
      offsetMatches p data a = offsetMatches p data b := by
  intro d
  induction d with
  | zero =>
    intro a b hab hd _
    have : a = b := by omega
    rw [this]
  | succ d ih =>
    intro a b hab hd hnone
    by_cases ha : a < data.length - p.len + 1
    · rw [offsetMatches_succ p data a ha, hnone a le_rfl (by omega),
        if_neg Bool.false_ne_true, List.nil_append]
      exact ih (a + 1) b (by omega) (by omega) (fun o ho1 ho2 => hnone o (by omega) ho2)
    · rw [offsetMatches_stop p data a (by omega), offsetMatches_stop p data b (by omega)]

/-- The naive matcher computes the canonical match list. -/
lemma naive_eq_offsetMatches (p : Pattern) (data : List Nat)
    (h1 : p.is_empty = false) (h2 : p.len ≤ data.length) :
    NaiveMatcher.find_all p data = offsetMatches p data 0 := by
  rw [NaiveMatcher.find_all, if_neg (by simp [h1]; omega), offsetMatches,
    List.range_eq_range']
  have : data.length - p.len + 1 - 0 = data.length - p.len + 1 := by omega
  rw [this]

/-- On a fully matching window the inner Boyer-Moore loop reaches 0. -/
lemma bmInnerLoop_of_matches (p : Pattern) (data : List Nat) (i : Nat)
    (h : p.matches_at data i = true) :
    ∀ j, j ≤ p.len → bmInnerLoop p data i j = 0 := by
  intro j
  induction j with
  | zero => intro _; rfl
  | succ j ih =>
    intro hj
    rw [bmInnerLoop, if_pos h]
    have hspec := (matches_at_spec p data i).mp h
    cases hb : p.bytes.getD j none with
    | none =>
      show bmInnerLoop p data i j = 0
      exact ih (by omega)
    | some pb =>
      have heq : data.getD (i + j) 0 = pb := hspec.2 j (by omega) pb hb
      show (if data.getD (i + j) 0 ≠ pb then j + 1 else bmInnerLoop p data i j) = 0
      rw [if_neg (show ¬data.getD (i + j) 0 ≠ pb from fun hc => hc heq)]
      exact ih (by omega)

/-- On a non-matching window the inner Boyer-Moore loop does not move. -/
lemma bmInnerLoop_of_not_matches (p : Pattern) (data : List Nat) (i : Nat)
    (h : p.matches_at data i = false) :
    ∀ j, bmInnerLoop p data i j = j := by
  intro j
  cases j with
  | zero => rfl
  | succ j =>
    rw [bmInnerLoop, if_neg (by rw [h]; exact Bool.false_ne_true)]

/-- Safety of the bad-character shift, known-byte case: when the window
at `i` mismatches and the last window byte occurs rightmost at pattern
index `pos`, no window strictly between `i` and the shifted position can
match a wildcard-free pattern. -/
lemma bm_skip_safe_some (p : Pattern) (w data : List Nat) (hw : p.bytes = w.map some)
    (i pos o : Nat)
    (htbl : build_bad_char_table p (data.getD (i + w.length - 1) 0) = some pos)
    (hio : i < o) (ho : o < i + max 1 (w.length - pos - 1)) :
    p.matches_at data o = false := by
  by_contra hcon
  rw [Bool.not_eq_false] at hcon
  obtain ⟨hob, hpt⟩ := (matches_at_pointwise p w data o hw).mp hcon
  obtain ⟨hpos, hposb, hright⟩ :=
    (build_bad_char_table_spec p (data.getD (i + w.length - 1) 0)).1 pos htbl
  have hm : 1 ≤ w.length := by
    rw [hw, List.length_map] at hpos
    omega
  -- the shift is bigger than 1, so it is `w.length - pos - 1`
  have hshift : 2 ≤ w.length - pos - 1 := by
    rcases le_or_lt (w.length - pos - 1) 1 with h1 | h1
    · have : max 1 (w.length - pos - 1) = 1 := by omega
      omega
    · omega
  have hmax : max 1 (w.length - pos - 1) = w.length - pos - 1 := by omega
  rw [hmax] at ho
  -- the pattern position aligned with the last byte of the old window
  set k := i + w.length - 1 - o with hk
  have hkpos : pos < k := by omega
  have hkm : k < w.length := by omega
  have hok : o + k = i + w.length - 1 := by omega
  have hbyte : w.getD k 0 = data.getD (i + w.length - 1) 0 := by
    rw [← hok]
    exact (hpt k hkm).symm
  have : p.bytes.getD k none = some (data.getD (i + w.length - 1) 0) := by
    rw [hw, getD_map_some w k hkm, hbyte]
  exact hright k hkpos (by rw [hw, List.length_map]; omega) this

/-- Safety of the bad-character shift, unknown-byte case: when the last
window byte never occurs exactly in the wildcard-free pattern, no window
strictly between `i` and `i + w.length` can match. -/
lemma bm_skip_safe_none (p : Pattern) (w data : List Nat) (hw : p.bytes = w.map some)
    (i o : Nat)
    (htbl : build_bad_char_table p (data.getD (i + w.length - 1) 0) = none)
    (hio : i < o) (ho : o < i + w.length) :
    p.matches_at data o = false := by
  by_contra hcon
  rw [Bool.not_eq_false] at hcon
  obtain ⟨hob, hpt⟩ := (matches_at_pointwise p w data o hw).mp hcon
  have hnone := (build_bad_char_table_spec p (data.getD (i + w.length - 1) 0)).2 htbl
  set k := i + w.length - 1 - o with hk
  have hkm : k < w.length := by omega
  have hok : o + k = i + w.length - 1 := by omega
  have hbyte : w.getD k 0 = data.getD (i + w.length - 1) 0 := by
    rw [← hok]
    exact (hpt k hkm).symm
  have : p.bytes.getD k none = some (data.getD (i + w.length - 1) 0) := by
    rw [hw, getD_map_some w k hkm, hbyte]
  exact hnone k (by rw [hw, List.length_map]; omega) this

/-- The Boyer-Moore outer loop collects exactly the canonical match list
from its current position, for a wildcard-free pattern. -/
lemma bmOuterLoop_spec (p : Pattern) (w data : List Nat) (hw : p.bytes = w.map some)
    (hm : 1 ≤ w.length) (hmn : w.length ≤ data.length) :
    ∀ fuel i acc, data.length - w.length + 1 - i ≤ fuel →
      bmOuterLoop p data (build_bad_char_table p) p.len fuel i acc =
        acc ++ offsetMatches p data i := by
  have hlen : p.len = w.length := len_of_map_some p w hw
  intro fuel
  induction fuel with
  | zero =>
    intro i acc hfb
    rw [bmOuterLoop, offsetMatches_stop p data i (by omega), List.append_nil]
  | succ fuel ih =>
    intro i acc hfb
    rw [bmOuterLoop]
    by_cases hguard : i ≤ data.length - p.len
    · rw [if_pos hguard]
      have hin : i + w.length ≤ data.length := by omega
      cases hmatch : p.matches_at data i with
      | true =>
        have hj : bmInnerLoop p data i p.len = 0 :=
          bmInnerLoop_of_matches p data i hmatch p.len le_rfl
        rw [hj, if_pos rfl,
          ih (i + 1) (acc ++ [(⟨i, p.len⟩ : PatternMatch)]) (by omega),
          offsetMatches_succ p data i (by omega), hmatch, if_pos rfl,
          List.append_assoc]
      | false =>
        have hj : bmInnerLoop p data i p.len = p.len :=
          bmInnerLoop_of_not_matches p data i hmatch p.len
        rw [hj, if_neg (by omega)]
        cases htbl : build_bad_char_table p (data.getD (i + p.len - 1) 0) with
        | some pos =>
          show bmOuterLoop p data (build_bad_char_table p) p.len fuel
            (i + max 1 (p.len - pos - 1)) acc = acc ++ offsetMatches p data i
          rw [ih (i + max 1 (p.len - pos - 1)) acc (by omega)]
          have hskip : offsetMatches p data i =
              offsetMatches p data (i + max 1 (p.len - pos - 1)) := by
            apply offsetMatches_skip p data (max 1 (p.len - pos - 1)) i _ (by omega) (by omega)
            intro o ho1 ho2
            rcases Nat.eq_or_lt_of_le ho1 with he | hlt
            · rw [← he]
              exact hmatch
            · refine bm_skip_safe_some p w data hw i pos o ?_ hlt ?_
              · rw [← hlen]
                exact htbl
              · omega
          rw [hskip]
        | none =>
          show bmOuterLoop p data (build_bad_char_table p) p.len fuel
            (i + p.len) acc = acc ++ offsetMatches p data i
          rw [ih (i + p.len) acc (by omega)]
          have hskip : offsetMatches p data i = offsetMatches p data (i + p.len) := by
            apply offsetMatches_skip p data p.len i _ (by omega) (by omega)
            intro o ho1 ho2
            rcases Nat.eq_or_lt_of_le ho1 with he | hlt
            · rw [← he]
              exact hmatch
            · refine bm_skip_safe_none p w data hw i o ?_ hlt (by omega)
              rw [← hlen]
              exact htbl
          rw [hskip]
    · rw [if_neg hguard, offsetMatches_stop p data i (by omega), List.append_nil]

/-- Boyer-Moore agrees with the naive matcher on wildcard-free patterns. -/
lemma bm_eq_naive (p : Pattern) (data : List Nat) (hnw : p.noWildcards = true) :
    BoyerMooreMatcher.find_all p data = NaiveMatcher.find_all p data := by
  obtain ⟨w, hw⟩ := all_isSome_exists_map p.bytes hnw
  have hlen : p.len = w.length := len_of_map_some p w hw
  by_cases hguard : p.is_empty = true ∨ data.length < p.len
  · rw [BoyerMooreMatcher.find_all, NaiveMatcher.find_all, if_pos hguard, if_pos hguard]
  · push_neg at hguard
    obtain ⟨hne, hfit⟩ := hguard
    have hne' : p.is_empty = false := by
      cases h : p.is_empty
      · rfl
      · exact absurd h hne
    have hm : 1 ≤ w.length := by
      rw [Pattern.is_empty, hw] at hne'
      cases w with
      | nil => simp at hne'
      | cons a t => simp
    rw [naive_eq_offsetMatches p data hne' (by omega), BoyerMooreMatcher.find_all,
      if_neg (by rw [hne']; simp; omega),
      bmOuterLoop_spec p w data hw hm (by omega) (data.length - p.len + 1) 0 [] (by omega),
      List.nil_append]

/-- The descent needs no fuel at 0. -/
lemma kmpDescend_zero (F : List Nat) (check : Nat → Bool) :
    ∀ fuel, kmpDescend F check fuel 0 = 0 := by
  intro fuel
  cases fuel with
  | zero => rfl
  | succ f => rfl

/-- Behaviour of `kmpAdvance` from landing point 0. -/
lemma kmpAdvance_zero_spec (w X : List Nat) (c : Nat) (F : List Nat) (check : Nat → Bool)
    (hcheck : ∀ t, t < w.length → (check t = true ↔ w.getD t 0 = c))
    (cap : Nat) (fuel : Nat) (hm : 0 < w.length) (hcap : 1 ≤ cap)
    (hup : ∀ k, 1 < k → k ≤ cap → ¬ w.take k <:+ X ++ [c]) :
    kmpAdvance F check fuel 0 ≤ 1 ∧ kmpAdvance F check fuel 0 ≤ cap ∧
      w.take (kmpAdvance F check fuel 0) <:+ X ++ [c] ∧
      ∀ k, k ≤ cap → w.take k <:+ X ++ [c] → k ≤ kmpAdvance F check fuel 0 := by
  rw [kmpAdvance, kmpDescend_zero]
  cases hc : check 0 with
  | true =>
    rw [if_pos rfl]
    have hc0 : w.getD 0 0 = c := (hcheck 0 hm).mp hc
    have hsuf : w.take 1 <:+ X ++ [c] := by
      rw [take_succ_suffix_iff w X c 0 hm]
      exact ⟨List.nil_suffix, hc0⟩
    refine ⟨le_rfl, hcap, hsuf, ?_⟩
    intro k hk hks
    by_contra hk1
    exact hup k (by omega) hk hks
  | false =>
    rw [if_neg Bool.false_ne_true]
    refine ⟨by omega, by omega, by simp only [List.take_zero]; exact List.nil_suffix, ?_⟩
    intro k hk hks
    by_contra hk0
    have hk1 : 1 ≤ k := by omega
    rcases Nat.eq_or_lt_of_le hk1 with he | hlt
    · rw [← he] at hks
      rw [take_succ_suffix_iff w X c 0 hm] at hks
      rw [(hcheck 0 hm).mpr hks.2] at hc
      cases hc
    · exact hup k hlt hk hks

/-- Main descent lemma: from the longest pattern prefix `j` that is a
suffix of the processed text `X`, `kmpAdvance` computes the longest
pattern prefix (below `cap`) that is a suffix of `X ++ [c]`. -/
lemma kmpAdvance_spec (w X : List Nat) (c : Nat) (F : List Nat) (check : Nat → Bool)
    (hcheck : ∀ t, t < w.length → (check t = true ↔ w.getD t 0 = c)) (cap : Nat) :
    ∀ fuel j, j ≤ fuel → j < w.length → j + 1 ≤ cap →
      w.take j <:+ X →
      (∀ t, t < j → borderSpec w F t) →
      (∀ k, j + 1 < k → k ≤ cap → ¬ w.take k <:+ X ++ [c]) →
      (kmpAdvance F check fuel j ≤ j + 1 ∧ kmpAdvance F check fuel j ≤ cap ∧
        w.take (kmpAdvance F check fuel j) <:+ X ++ [c] ∧
        ∀ k, k ≤ cap → w.take k <:+ X ++ [c] → k ≤ kmpAdvance F check fuel j) := by
  intro fuel
  induction fuel with
  | zero =>
    intro j hjf hjm hjcap hsuf hF hup
    have hj0 : j = 0 := by omega
    subst hj0
    exact kmpAdvance_zero_spec w X c F check hcheck cap 0 (by omega) (by omega) hup
  | succ fuel ih =>
    intro j hjf hjm hjcap hsuf hF hup
    cases j with
    | zero =>
      exact kmpAdvance_zero_spec w X c F check hcheck cap (fuel + 1) (by omega) (by omega) hup
    | succ j' =>
      cases hc : check (j' + 1) with
      | true =>
        have hdes : kmpDescend F check (fuel + 1) (j' + 1) = j' + 1 := by
          rw [kmpDescend, if_pos hc]
        rw [kmpAdvance, hdes, if_pos hc]
        have hsuf2 : w.take (j' + 1 + 1) <:+ X ++ [c] := by
          rw [take_succ_suffix_iff w X c (j' + 1) hjm]
          exact ⟨hsuf, (hcheck (j' + 1) hjm).mp hc⟩
        refine ⟨le_rfl, hjcap, hsuf2, ?_⟩
        intro k hk hks
        by_contra hklt
        exact hup k (by omega) hk hks
      | false =>
        have hdes : kmpDescend F check (fuel + 1) (j' + 1) =
            kmpDescend F check fuel (F.getD j' 0) := by
          rw [kmpDescend, if_neg (by rw [hc]; exact Bool.false_ne_true)]
        have hadv : kmpAdvance F check (fuel + 1) (j' + 1) =
            kmpAdvance F check fuel (F.getD j' 0) := by
          rw [kmpAdvance, kmpAdvance, hdes]
        rw [hadv]
        have hbs := hF j' (by omega)
        obtain ⟨hb1, hb2, hb3⟩ := hbs
        have hrec := ih (F.getD j' 0) (by omega) (by omega) (by omega)
          (hb2.trans hsuf)
          (fun t ht => hF t (by omega))
          ?_
        · obtain ⟨hr1, hr2, hr3, hr4⟩ := hrec
          exact ⟨by omega, hr2, hr3, hr4⟩
        · intro k hk1 hk2 hks
          rcases Nat.lt_or_ge (j' + 1 + 1) k with hgt | hle
          · exact hup k hgt hk2 hks
          · rcases Nat.eq_or_lt_of_le hle with he | hlt
            · rw [he] at hks
              rw [take_succ_suffix_iff w X c (j' + 1) hjm] at hks
              rw [(hcheck (j' + 1) hjm).mpr hks.2] at hc
              cases hc
            · have hkj : k ≤ j' + 1 := by omega
              have hk0 : 1 ≤ k := by omega
              have hks2 : w.take (k - 1 + 1) <:+ X ++ [c] := by
                rw [show k - 1 + 1 = k by omega]
                exact hks
              rw [take_succ_suffix_iff w X c (k - 1) (by omega)] at hks2
              have hsufk : w.take (k - 1) <:+ w.take (j' + 1) :=
                suffix_of_suffix_length_le hks2.1 hsuf
                  (by rw [List.length_take, List.length_take]; omega)
              have := hb3 (k - 1) (by omega) hsufk
              omega

/-- One build iteration is a set of the advanced landing point. -/
lemma kmpBuildStep_eq (p : Pattern) (st : List Nat × Nat) (i : Nat) :
    kmpBuildStep p st i =
      (st.1.set i (kmpAdvance st.1 (fun j => pattern_chars_equal p i j) st.2 st.2),
        kmpAdvance st.1 (fun j => pattern_chars_equal p i j) st.2 st.2) := rfl

/-- One search iteration through `kmpAdvance`. -/
lemma kmpSearchStep_eq (p : Pattern) (data : List Nat) (failure : List Nat)
    (st : List PatternMatch × Nat) (i : Nat) :
    kmpSearchStep p data failure st i =
      (if kmpAdvance failure (fun j => pattern_matches_data p data j i) st.2 st.2 = p.len
        then (st.1 ++ [⟨usizeAdd (usizeSub i p.len) 1, p.len⟩],
          failure.getD
            (kmpAdvance failure (fun j => pattern_matches_data p data j i) st.2 st.2 - 1) 0)
        else (st.1,
          kmpAdvance failure (fun j => pattern_matches_data p data j i) st.2 st.2)) := rfl

/-- Wildcard-free reading of `pattern_chars_equal`. -/
lemma chars_equal_iff (p : Pattern) (w : List Nat) (hw : p.bytes = w.map some)
    (i t : Nat) (hi : i < w.length) (ht : t < w.length) :
    (pattern_chars_equal p i t = true) ↔ w.getD t 0 = w.getD i 0 := by
  rw [pattern_chars_equal, hw, getD_map_some w i hi, getD_map_some w t ht]
  show (w.getD i 0 == w.getD t 0) = true ↔ _
  rw [beq_iff_eq]
  exact eq_comm

/-- Wildcard-free reading of `pattern_matches_data`. -/
lemma matches_data_iff (p : Pattern) (w data : List Nat) (hw : p.bytes = w.map some)
    (t i : Nat) (ht : t < w.length) :
    (pattern_matches_data p data t i = true) ↔ w.getD t 0 = data.getD i 0 := by
  rw [pattern_matches_data, hw, getD_map_some w t ht]
  show (data.getD i 0 == w.getD t 0) = true ↔ _
  rw [beq_iff_eq]
  exact eq_comm

/-- Invariant of the failure-function construction loop: processing
indices `i, …, i+len-1` from a table that is correct below `i` produces
a table of unchanged length that is correct everywhere below the pattern
length. -/
lemma build_failure_inv (p : Pattern) (w : List Nat) (hw : p.bytes = w.map some) :
    ∀ (len i : Nat) (F : List Nat) (j : Nat),
      1 ≤ i → i + len = w.length → F.length = w.length →
      (∀ t, t < i → borderSpec w F t) → j = F.getD (i - 1) 0 →
      (((List.range' i len).foldl (kmpBuildStep p) (F, j)).1.length = w.length ∧
        ∀ t, t < w.length →
          borderSpec w ((List.range' i len).foldl (kmpBuildStep p) (F, j)).1 t) := by
  intro len
  induction len with
  | zero =>
    intro i F j _ hilen hFlen hbs _
    exact ⟨hFlen, fun t ht => hbs t (by omega)⟩
  | succ len ih =>
    intro i F j hi1 hilen hFlen hbs hj
    rw [List.range'_succ, List.foldl_cons, kmpBuildStep_eq]
    have him : i < w.length := by omega
    have hprev := hbs (i - 1) (by omega)
    have hjlt : j < w.length := by
      have := hprev.1
      omega
    have hjcap : j + 1 ≤ i := by
      have := hprev.1
      omega
    have hXc : w.take i ++ [w.getD i 0] = w.take (i + 1) := (take_succ_getD w i him).symm
    have hjsuf : w.take j <:+ w.take i := by
      have h2 := hprev.2.1
      rw [show i - 1 + 1 = i by omega] at h2
      rw [hj]
      exact h2
    have hupX : ∀ k, j + 1 < k → k ≤ i → ¬ w.take k <:+ w.take i ++ [w.getD i 0] := by
      intro k hk1 hk2 hks
      have hks2 : w.take (k - 1 + 1) <:+ w.take i ++ [w.getD i 0] := by
        rw [show k - 1 + 1 = k by omega]
        exact hks
      rw [take_succ_suffix_iff w (w.take i) (w.getD i 0) (k - 1) (by omega)] at hks2
      have hmax := hprev.2.2 (k - 1) (by omega)
        (by rw [show i - 1 + 1 = i by omega]; exact hks2.1)
      omega
    obtain ⟨ha1, ha2, ha3, ha4⟩ := kmpAdvance_spec w (w.take i) (w.getD i 0) F
      (fun t => pattern_chars_equal p i t)
      (fun t ht => chars_equal_iff p w hw i t him ht) i j j le_rfl hjlt hjcap hjsuf
      (fun t ht => hbs t (by omega)) hupX
    have hiF : i < F.length := by omega
    have hgetD_i : (F.set i (kmpAdvance F (fun t => pattern_chars_equal p i t) j j)).getD
        i 0 = kmpAdvance F (fun t => pattern_chars_equal p i t) j j := by
      simp [List.getD_eq_getElem?_getD, List.getElem?_set_self, hiF]
    have hgetD_ne : ∀ t, t ≠ i →
        (F.set i (kmpAdvance F (fun t => pattern_chars_equal p i t) j j)).getD t 0 =
          F.getD t 0 := by
      intro t ht
      simp [List.getD_eq_getElem?_getD, List.getElem?_set, Ne.symm ht]
    have hbs' : ∀ t, t < i + 1 →
        borderSpec w (F.set i (kmpAdvance F (fun t => pattern_chars_equal p i t) j j)) t := by
      intro t ht
      rcases Nat.lt_or_ge t i with hti | hti
      · obtain ⟨ho1, ho2, ho3⟩ := hbs t hti
        refine ⟨?_, ?_, ?_⟩
        · rw [hgetD_ne t (by omega)]
          exact ho1
        · rw [hgetD_ne t (by omega)]
          exact ho2
        · intro k hk hsufk
          rw [hgetD_ne t (by omega)]
          exact ho3 k hk hsufk
      · have hti2 : t = i := by omega
        subst hti2
        refine ⟨?_, ?_, ?_⟩
        · rw [hgetD_i]
          exact ha2
        · rw [hgetD_i, ← hXc]
          exact ha3
        · intro k hk hsufk
          rw [hgetD_i]
          exact ha4 k hk (by rw [hXc]; exact hsufk)
    exact ih (i + 1) (F.set i (kmpAdvance F (fun t => pattern_chars_equal p i t) j j))
      (kmpAdvance F (fun t => pattern_chars_equal p i t) j j) (by omega) (by omega)
      (by rw [List.length_set]; exact hFlen) hbs'
      (by rw [show i + 1 - 1 = i by omega, hgetD_i])

/-- The failure table of a wildcard-free non-empty pattern is correct at
every index. -/
lemma build_failure_function_spec (p : Pattern) (w : List Nat) (hw : p.bytes = w.map some)
    (hm : 1 ≤ w.length) :
    (build_failure_function p).length = w.length ∧
      ∀ t, t < w.length → borderSpec w (build_failure_function p) t := by
  rw [build_failure_function, len_of_map_some p w hw]
  have hrep : ∀ t, t < 1 → borderSpec w (List.replicate w.length 0) t := by
    intro t ht
    have ht0 : t = 0 := by omega
    subst ht0
    have hg : (List.replicate w.length 0).getD 0 0 = 0 := by
      simp [List.getD_eq_getElem?_getD, List.getElem?_replicate,
        show 0 < w.length by omega]
    refine ⟨by rw [hg], ?_, ?_⟩
    · rw [hg, List.take_zero]
      exact List.nil_suffix
    · intro k hk _
      rw [hg]
      omega
  have hj0 : (0 : Nat) = (List.replicate w.length 0).getD (1 - 1) 0 := by
    simp [List.getD_eq_getElem?_getD, List.getElem?_replicate,
      show 0 < w.length by omega]
  exact build_failure_inv p w hw (w.length - 1) 1 (List.replicate w.length 0) 0
    le_rfl (by omega) (by rw [List.length_replicate]) hrep hj0

/-- The wrapped `i - len + 1` offset equals the plain one whenever a
match really ends at `i`. -/
lemma usize_offset_eq (i m : Nat) (hm : 1 ≤ m) (hmi : m ≤ i + 1) (hiU : i < USIZE_MOD) :
    usizeAdd (usizeSub i m) 1 = i + 1 - m := by
  rw [usizeAdd, usizeSub, USIZE_MOD] at *
  have h64 : (2 : Nat) ^ 64 = 18446744073709551616 := by norm_num
  rw [h64] at *
  omega

/-- Invariant of the KMP matching loop: from a state where `j` is the
longest pattern prefix that is a suffix of the processed text, the loop
appends exactly the occurrences ending at the remaining indices. -/
lemma kmpSearchLoop_inv (p : Pattern) (w data : List Nat) (hw : p.bytes = w.map some)
    (hm : 1 ≤ w.length) (hU : data.length < USIZE_MOD)
    (hF : ∀ t, t < w.length → borderSpec w (build_failure_function p) t) :
    ∀ (cnt i : Nat) (acc : List PatternMatch) (j : Nat),
      i + cnt = data.length →
      j < w.length → w.take j <:+ data.take i →
      (∀ k, k < w.length → w.take k <:+ data.take i → k ≤ j) →
      ((List.range' i cnt).foldl (kmpSearchStep p data (build_failure_function p))
        (acc, j)).1 = acc ++ kmpEndMatches w data i := by
  have hlen : p.len = w.length := len_of_map_some p w hw
  intro cnt
  induction cnt with
  | zero =>
    intro i acc j hcnt _ _ _
    show acc = acc ++ kmpEndMatches w data i
    rw [kmpEndMatches, show data.length - i = 0 by omega]
    rw [show List.range' i 0 = [] from rfl, List.filterMap_nil, List.append_nil]
  | succ cnt ih =>
    intro i acc j hcnt hjm hjsuf hjmax
    have hin : i < data.length := by omega
    rw [List.range'_succ, List.foldl_cons, kmpSearchStep_eq]
    have hXc : data.take i ++ [data.getD i 0] = data.take (i + 1) :=
      (take_succ_getD data i hin).symm
    have hupX : ∀ k, j + 1 < k → k ≤ w.length →
        ¬ w.take k <:+ data.take i ++ [data.getD i 0] := by
      intro k hk1 hk2 hks
      have hks2 : w.take (k - 1 + 1) <:+ data.take i ++ [data.getD i 0] := by
        rw [show k - 1 + 1 = k by omega]
        exact hks
      rw [take_succ_suffix_iff w (data.take i) (data.getD i 0) (k - 1) (by omega)] at hks2
      have := hjmax (k - 1) (by omega) hks2.1
      omega
    obtain ⟨ha1, ha2, ha3, ha4⟩ := kmpAdvance_spec w (data.take i) (data.getD i 0)
      (build_failure_function p) (fun t => pattern_matches_data p data t i)
      (fun t ht => matches_data_iff p w data hw t i ht) w.length j j le_rfl hjm
      (by omega) hjsuf (fun t ht => hF t (by omega)) hupX
    rw [hXc] at ha3 ha4
    by_cases hrm :
        kmpAdvance (build_failure_function p) (fun t => pattern_matches_data p data t i) j j
          = p.len
    · rw [if_pos hrm]
      have hrw :
          kmpAdvance (build_failure_function p) (fun t => pattern_matches_data p data t i) j j
            = w.length := by rw [hrm, hlen]
      have hocc : w <:+ data.take (i + 1) := by
        rw [hrw, List.take_length] at ha3
        exact ha3
      have hmi : w.length ≤ i + 1 := by
        have := hocc.length_le
        rw [List.length_take] at this
        omega
      have hoff : usizeAdd (usizeSub i p.len) 1 = i + 1 - w.length := by
        rw [hlen]
        exact usize_offset_eq i w.length hm hmi (by omega)
      have hbsm := hF (w.length - 1) (by omega)
      have hj'lt : (build_failure_function p).getD
          (kmpAdvance (build_failure_function p)
            (fun t => pattern_matches_data p data t i) j j - 1) 0 < w.length := by
        rw [hrw]
        have := hbsm.1
        omega
      have htake1 : w.length - 1 + 1 = w.length := by omega
      have hj'suf : w.take ((build_failure_function p).getD
          (kmpAdvance (build_failure_function p)
            (fun t => pattern_matches_data p data t i) j j - 1) 0) <:+ data.take (i + 1) := by
        rw [hrw]
        have h2 := hbsm.2.1
        rw [htake1, List.take_length] at h2
        exact h2.trans hocc
      have hj'max : ∀ k, k < w.length → w.take k <:+ data.take (i + 1) →
          k ≤ (build_failure_function p).getD
            (kmpAdvance (build_failure_function p)
              (fun t => pattern_matches_data p data t i) j j - 1) 0 := by
        intro k hk hks
        rw [hrw]
        have hkw : w.take k <:+ w :=
          suffix_of_suffix_length_le hks hocc (by rw [List.length_take]; omega)
        exact hbsm.2.2 k (by omega) (by rw [htake1, List.take_length]; exact hkw)
      have hexp : kmpEndMatches w data i =
          (⟨i + 1 - w.length, w.length⟩ : PatternMatch) :: kmpEndMatches w data (i + 1) := by
        rw [kmpEndMatches, kmpEndMatches,
          show data.length - i = (data.length - (i + 1)) + 1 by omega, List.range'_succ]
        simp [List.filterMap_cons, hocc]
      rw [ih (i + 1) (acc ++ [(⟨usizeAdd (usizeSub i p.len) 1, p.len⟩ : PatternMatch)]) _ (by omega)
        hj'lt hj'suf hj'max, hexp, hoff, hlen, List.append_assoc]
      rfl
    · rw [if_neg hrm]
      have hrm' :
          kmpAdvance (build_failure_function p) (fun t => pattern_matches_data p data t i) j j
            < w.length := by
        rw [hlen] at hrm
        omega
      have hnocc : ¬ w <:+ data.take (i + 1) := by
        intro hocc
        have := ha4 w.length le_rfl (by rw [List.take_length]; exact hocc)
        omega
      have hexp : kmpEndMatches w data i = kmpEndMatches w data (i + 1) := by
        rw [kmpEndMatches, kmpEndMatches,
          show data.length - i = (data.length - (i + 1)) + 1 by omega, List.range'_succ]
        simp [List.filterMap_cons, hnocc]
      rw [ih (i + 1) acc _ (by omega) hrm' ha3 (fun k hk hks => ha4 k (by omega) hks), hexp]

/-- Congruence of `filterMap` over equally long shifted ranges. -/
lemma filterMap_range'_congr {α : Type} (f g : Nat → Option α) :
    ∀ (len s1 s2 : Nat), (∀ q, q < len → f (s1 + q) = g (s2 + q)) →
      (List.range' s1 len).filterMap f = (List.range' s2 len).filterMap g := by
  intro len
  induction len with
  | zero => intro s1 s2 _; rfl
  | succ len ih =>
    intro s1 s2 h
    rw [List.range'_succ, List.range'_succ]
    have h0 := h 0 (by omega)
    simp only [Nat.add_zero] at h0
    have hrest := ih (s1 + 1) (s2 + 1) (fun q hq => by
      have hx := h (q + 1) (by omega)
      rw [show s1 + (q + 1) = s1 + 1 + q by omega,
        show s2 + (q + 1) = s2 + 1 + q by omega] at hx
      exact hx)
    cases hg : g s2 with
    | none =>
      rw [List.filterMap_cons_none (by rw [h0, hg]), List.filterMap_cons_none hg, hrest]
    | some v =>
      rw [List.filterMap_cons_some (by rw [h0, hg]),
        List.filterMap_cons_some hg, hrest]

/-- The end-position form of the match list is the canonical offset
form. -/
lemma kmpEndMatches_eq_offsetMatches (p : Pattern) (w data : List Nat)
    (hw : p.bytes = w.map some) (hm : 1 ≤ w.length) (hmn : w.length ≤ data.length) :
    kmpEndMatches w data 0 = offsetMatches p data 0 := by
  have hlen : p.len = w.length := len_of_map_some p w hw
  rw [kmpEndMatches, offsetMatches]
  have hsplit : List.range' 0 (data.length - 0) =
      List.range' 0 (w.length - 1) ++
        List.range' (0 + (w.length - 1)) (data.length - w.length + 1) := by
    rw [List.range'_append_1, show data.length - w.length + 1 + (w.length - 1) =
      data.length - 0 by omega]
  rw [hsplit, List.filterMap_append]
  have hfirst : (List.range' 0 (w.length - 1)).filterMap
      (fun e => if w <:+ data.take (e + 1) then
        some (⟨e + 1 - w.length, w.length⟩ : PatternMatch) else none) = [] := by
    rw [List.filterMap_eq_nil_iff]
    intro e he
    rw [List.mem_range'_1] at he
    rw [if_neg]
    intro hsuf
    have := hsuf.length_le
    rw [List.length_take] at this
    omega
  rw [hfirst, List.nil_append,
    show data.length - p.len + 1 - 0 = data.length - w.length + 1 by omega]
  apply filterMap_range'_congr
  intro q hq
  have hbound : q + w.length ≤ data.length := by omega
  have hcond : (w <:+ data.take (0 + (w.length - 1) + q + 1)) ↔
      p.matches_at data (0 + q) = true := by
    rw [show 0 + (w.length - 1) + q + 1 = q + w.length by omega,
      suffix_take_iff data w q hbound,
      slice_eq_iff data w q hbound,
      matches_at_pointwise p w data (0 + q) hw]
    constructor
    · intro h
      exact ⟨by omega, by simpa using h⟩
    · intro h
      simpa using h.2
  by_cases hc : p.matches_at data (0 + q) = true
  · rw [if_pos (hcond.mpr hc), if_pos hc, hlen]
    have : 0 + (w.length - 1) + q + 1 - w.length = 0 + q := by omega
    rw [this]
  · rw [if_neg (fun hs => hc (hcond.mp hs)), if_neg hc]

/-- KMP agrees with the naive matcher on wildcard-free patterns (over a
buffer that fits in the address space, as any real one does). -/
lemma kmp_eq_naive (p : Pattern) (data : List Nat) (hnw : p.noWildcards = true)
    (hU : data.length < USIZE_MOD) :
    KmpMatcher.find_all p data = NaiveMatcher.find_all p data := by
  obtain ⟨w, hw⟩ := all_isSome_exists_map p.bytes hnw
  have hlen : p.len = w.length := len_of_map_some p w hw
  by_cases hguard : p.is_empty = true ∨ data.length < p.len
  · rw [KmpMatcher.find_all, NaiveMatcher.find_all, if_pos hguard, if_pos hguard]
  · push_neg at hguard
    obtain ⟨hne, hfit⟩ := hguard
    have hne' : p.is_empty = false := by
      cases h : p.is_empty
      · rfl
      · exact absurd h hne
    have hm : 1 ≤ w.length := by
      rw [Pattern.is_empty, hw] at hne'
      cases w with
      | nil => simp at hne'
      | cons a t => simp
    have hFspec := build_failure_function_spec p w hw hm
    rw [naive_eq_offsetMatches p data hne' (by omega), KmpMatcher.find_all,
      if_neg (by rw [hne']; simp; omega), List.range_eq_range',
      kmpSearchLoop_inv p w data hw hm hU hFspec.2 data.length 0 [] 0 (by omega)
        (by omega) (by rw [List.take_zero]; exact List.nil_suffix) ?_,
      List.nil_append,
      kmpEndMatches_eq_offsetMatches p w data hw hm (by omega)]
    intro k hk hks
    rw [List.take_zero] at hks
    have := List.suffix_nil.mp hks
    have hkl : (w.take k).length = k := by
      rw [List.length_take]
      omega
    rw [this] at hkl
    simp at hkl
    omega

end MatcherEquivalence

/-- Claim C2: for every wildcard-free pattern and every buffer (of
`usize`-representable length, as every real buffer is), the Boyer-Moore
and KMP matchers return exactly the naive matcher's match list — hence
all three return identical offset sets. -/
theorem C2_wildcard_free_matchers_agree (p : Pattern) (data : List Nat)
    (hnw : p.noWildcards = true) (hU : data.length < USIZE_MOD) :
    BoyerMooreMatcher.find_all p data = NaiveMatcher.find_all p data ∧
      KmpMatcher.find_all p data = NaiveMatcher.find_all p data :=
  ⟨bm_eq_naive p data hnw, kmp_eq_naive p data hnw hU⟩

/-- Witness for C2: the wildcard-free pattern `01 02` on a concrete
buffer. -/
theorem C2_wildcard_free_matchers_agree_witness :
    (Pattern.mk [some 1, some 2] ['x', 'x']).noWildcards = true ∧
      ([1, 2, 9, 1, 2] : List Nat).length < USIZE_MOD ∧
      (BoyerMooreMatcher.find_all ⟨[some 1, some 2], ['x', 'x']⟩ [1, 2, 9, 1, 2] =
          NaiveMatcher.find_all ⟨[some 1, some 2], ['x', 'x']⟩ [1, 2, 9, 1, 2] ∧
        KmpMatcher.find_all ⟨[some 1, some 2], ['x', 'x']⟩ [1, 2, 9, 1, 2] =
          NaiveMatcher.find_all ⟨[some 1, some 2], ['x', 'x']⟩ [1, 2, 9, 1, 2]) :=
  ⟨by decide, by decide,
    C2_wildcard_free_matchers_agree ⟨[some 1, some 2], ['x', 'x']⟩ [1, 2, 9, 1, 2]
      (by decide) (by decide)⟩

/-- Counterexample to claim C1 as stated: on the wildcard pattern
`41 42 ??` and buffer `41 42 00 42 00`, KMP reports a spurious match at
offset 2 (its failure links treat the wildcard as equal to everything),
so the three matchers do not return the same offset set for every
pattern. -/
theorem C1_counterexample_kmp_wildcard_false_positive :
    KmpMatcher.find_all ⟨[some 0x41, some 0x42, none], ['x', 'x', '?']⟩
        [0x41, 0x42, 0x00, 0x42, 0x00] = [⟨0, 3⟩, ⟨2, 3⟩] ∧
      NaiveMatcher.find_all ⟨[some 0x41, some 0x42, none], ['x', 'x', '?']⟩
        [0x41, 0x42, 0x00, 0x42, 0x00] = [⟨0, 3⟩] ∧
      ((⟨2, 3⟩ : PatternMatch) ∈
          KmpMatcher.find_all ⟨[some 0x41, some 0x42, none], ['x', 'x', '?']⟩
            [0x41, 0x42, 0x00, 0x42, 0x00] ∧
        (⟨2, 3⟩ : PatternMatch) ∉
          NaiveMatcher.find_all ⟨[some 0x41, some 0x42, none], ['x', 'x', '?']⟩
            [0x41, 0x42, 0x00, 0x42, 0x00]) := by
  decide

/-- Claim C1 (amended): for wildcard-free patterns the three concrete
matchers return identical match lists, so `HybridMatcher`'s
performance-driven selection never changes the result there; for
patterns containing wildcards the matchers can disagree (KMP can report
spurious matches), so the selection is only behaviour-preserving on the
wildcard-free fragment. -/
theorem C1_hybrid_selection_preserves_result (p : Pattern) (data : List Nat)
    (hnw : p.noWildcards = true) (hU : data.length < USIZE_MOD) :
    HybridMatcher.find_all p data = NaiveMatcher.find_all p data := by
  rw [HybridMatcher.find_all]
  cases hsel : select_matcher p with
  | BoyerMoore => exact bm_eq_naive p data hnw
  | Kmp => exact kmp_eq_naive p data hnw hU
  | Naive => rfl

/-- Witness for C1: an 8-byte wildcard-free pattern (for which the
hybrid selector picks Boyer-Moore) on a concrete buffer. -/
theorem C1_hybrid_selection_preserves_result_witness :
    (Pattern.mk [some 1, some 2, some 3, some 4, some 5, some 6, some 7, some 8]
        ['x', 'x', 'x', 'x', 'x', 'x', 'x', 'x']).noWildcards = true ∧
      ([1, 2, 3, 4, 5, 6, 7, 8, 1, 2] : List Nat).length < USIZE_MOD ∧
      HybridMatcher.find_all
          ⟨[some 1, some 2, some 3, some 4, some 5, some 6, some 7, some 8],
            ['x', 'x', 'x', 'x', 'x', 'x', 'x', 'x']⟩ [1, 2, 3, 4, 5, 6, 7, 8, 1, 2] =
        NaiveMatcher.find_all
          ⟨[some 1, some 2, some 3, some 4, some 5, some 6, some 7, some 8],
            ['x', 'x', 'x', 'x', 'x', 'x', 'x', 'x']⟩ [1, 2, 3, 4, 5, 6, 7, 8, 1, 2] :=
  ⟨by decide, by decide,
    C1_hybrid_selection_preserves_result
      ⟨[some 1, some 2, some 3, some 4, some 5, some 6, some 7, some 8],
        ['x', 'x', 'x', 'x', 'x', 'x', 'x', 'x']⟩ [1, 2, 3, 4, 5, 6, 7, 8, 1, 2]
      (by decide) (by decide)⟩

end ModHub
